import Mathlib

/-!
Verification of the incident-aggregation and task-queue orchestration core of the
kai-vscode-plugin repository, as a shallow embedding in Lean 4.

The embedding covers:
* the JSON value model and the response-content extraction of
  `KaiFixDetails.extractUpdatedFile` and the result routing of
  `KaiFixDetails.handleTaskResult` (src/kaiFix/kaiFix.ts);
* the incident index of `FileIncidentManager` with `parseOutputYaml`,
  `updateFileIncidents`, `mapKeyToKind`, `extractFilePath`
  (src/server/fileIncidentUtil.ts);
* the task scheduler of `ProcessController` / `MyTaskProvider` with
  `processQueue`, `startTask`, `completeTask`, `cancelTask` and the
  completion guard of `SimplePseudoterminal.runTask` (taskprovider module).

JavaScript `Map` objects are modelled as association lists with first-match
lookup and in-place replacement, `Set` objects as duplicate-free insertion
lists, and the opaque `vscode.TaskExecution` handle of a started task is
identified with the id of the task that owns it (each call to
`vscode.tasks.executeTask` yields a fresh handle, owned by exactly one task).
-/

namespace KaiPlugin

/-! ## JS-style association maps (JavaScript `Map`) -/

/-- First-match lookup, mirroring `Map.get`. -/
def mlookup {α : Type} (m : List (String × α)) (k : String) : Option α :=
  match m with
  | [] => none
  | (k', v) :: rest => if k' = k then some v else mlookup rest k

/-- `Map.set`: replace the value in place when the key exists, else append. -/
def mapSet {α : Type} (m : List (String × α)) (k : String) (v : α) : List (String × α) :=
  match m with
  | [] => [(k, v)]
  | (k', v') :: rest => if k' = k then (k, v) :: rest else (k', v') :: mapSet rest k v

theorem mlookup_mapSet_self {α : Type} (m : List (String × α)) (k : String) (v : α) :
    mlookup (mapSet m k v) k = some v := by
  induction m with
  | nil => simp [mapSet, mlookup]
  | cons p rest ih =>
    obtain ⟨k', v'⟩ := p
    by_cases h : k' = k
    · simp [mapSet, h, mlookup]
    · simp [mapSet, h, mlookup, ih]

theorem mlookup_mapSet_ne {α : Type} (m : List (String × α)) (k k' : String) (v : α)
    (h : k' ≠ k) : mlookup (mapSet m k v) k' = mlookup m k' := by
  induction m with
  | nil => simp [mapSet, mlookup, Ne.symm h]
  | cons p rest ih =>
    obtain ⟨k0, v0⟩ := p
    by_cases h0 : k0 = k
    · subst h0
      simp [mapSet, mlookup, Ne.symm h]
    · simp only [mapSet, if_neg h0, mlookup]
      by_cases h1 : k0 = k'
      · simp [h1]
      · simp [h1, ih]

/-! ## JSON values (results of JavaScript `JSON.parse`) -/

/-- A JavaScript value produced by `JSON.parse`.  Numbers are kept exactly as
`mantissa * 10 ^ exponent`, which preserves the only observation the code
makes of them (truthiness). -/
inductive Json : Type where
  | null : Json
  | bool (b : Bool) : Json
  | num (mantissa : Int) (exponent : Int) : Json
  | str (s : String) : Json
  | arr (elems : List Json) : Json
  | obj (fields : List (String × Json)) : Json

/-- JavaScript truthiness of a parsed JSON value (arrays and objects are
always truthy; `JSON.parse` never yields `NaN` or `undefined`). -/
def Json.truthy : Json → Bool
  | .null => false
  | .bool b => b
  | .num m _ => m ≠ 0
  | .str s => s ≠ ""
  | .arr _ => true
  | .obj _ => true

/-- Whether a JS value is a non-empty string. -/
def Json.isNonemptyString : Json → Bool
  | .str s => s ≠ ""
  | _ => false

/-! ## A model of `JSON.parse`

Recursive-descent parser over the character list of the input, following the
JSON grammar accepted by JavaScript's `JSON.parse`: a single value, optional
surrounding whitespace, trailing garbage rejected.  Structural recursion is on
an explicit fuel bounded by the input length. -/

def jsonWs (c : Char) : Bool :=
  c = ' ' ∨ c = '\t' ∨ c = '\n' ∨ c = '\r'

def skipWs : List Char → List Char
  | [] => []
  | c :: rest => if jsonWs c then skipWs rest else c :: rest

def hexVal (c : Char) : Option Nat :=
  if '0' ≤ c ∧ c ≤ '9' then some (c.toNat - 48)
  else if 'a' ≤ c ∧ c ≤ 'f' then some (c.toNat - 87)
  else if 'A' ≤ c ∧ c ≤ 'F' then some (c.toNat - 55)
  else none

/-- Body of a JSON string literal, after the opening quote. -/
def parseStringBody : Nat → List Char → List Char → Option (String × List Char)
  | 0, _, _ => none
  | _ + 1, [], _ => none
  | fuel + 1, c :: rest, acc =>
    if c = '"' then some (String.mk acc.reverse, rest)
    else if c = '\\' then
      match rest with
      | [] => none
      | e :: rest2 =>
        if e = '"' then parseStringBody fuel rest2 ('"' :: acc)
        else if e = '\\' then parseStringBody fuel rest2 ('\\' :: acc)
        else if e = '/' then parseStringBody fuel rest2 ('/' :: acc)
        else if e = 'b' then parseStringBody fuel rest2 (Char.ofNat 8 :: acc)
        else if e = 'f' then parseStringBody fuel rest2 (Char.ofNat 12 :: acc)
        else if e = 'n' then parseStringBody fuel rest2 ('\n' :: acc)
        else if e = 'r' then parseStringBody fuel rest2 (Char.ofNat 13 :: acc)
        else if e = 't' then parseStringBody fuel rest2 ('\t' :: acc)
        else if e = 'u' then
          match rest2 with
          | h1 :: h2 :: h3 :: h4 :: rest3 =>
            match hexVal h1, hexVal h2, hexVal h3, hexVal h4 with
            | some a, some b, some c2, some d =>
              parseStringBody fuel rest3 (Char.ofNat (((a * 16 + b) * 16 + c2) * 16 + d) :: acc)
            | _, _, _, _ => none
          | _ => none
        else none
    else if c.toNat < 32 then none
    else parseStringBody fuel rest (c :: acc)

def isDigit (c : Char) : Bool := '0' ≤ c ∧ c ≤ '9'

def takeDigits : List Char → List Nat × List Char
  | [] => ([], [])
  | c :: rest =>
    if isDigit c then
      let (ds, r) := takeDigits rest
      ((c.toNat - 48) :: ds, r)
    else ([], c :: rest)

def digitsToNat (ds : List Nat) : Nat := ds.foldl (fun acc d => acc * 10 + d) 0

/-- JSON number: `-?int frac? exp?` with no leading zeros in the integer part. -/
def parseNumber (cs : List Char) : Option (Json × List Char) :=
  let (neg, cs1) := match cs with
    | '-' :: rest => (true, rest)
    | _ => (false, cs)
  let (ints, cs2) := takeDigits cs1
  if ints = [] then none
  else if ints.length > 1 ∧ ints.headI = 0 then none
  else
    let (fracs, cs3) := match cs2 with
      | '.' :: rest =>
        let (ds, r) := takeDigits rest
        (some ds, r)
      | _ => (none, cs2)
    match fracs with
    | some [] => none
    | _ =>
      let fracDigits := fracs.getD []
      let (expPart, cs4) : Option Int × List Char := match cs3 with
        | c :: rest =>
          if c = 'e' ∨ c = 'E' then
            match rest with
            | '+' :: rest2 =>
              let (ds, r) := takeDigits rest2
              if ds = [] then (none, cs3) else (some (Int.ofNat (digitsToNat ds)), r)
            | '-' :: rest2 =>
              let (ds, r) := takeDigits rest2
              if ds = [] then (none, cs3) else (some (-(Int.ofNat (digitsToNat ds))), r)
            | _ =>
              let (ds, r) := takeDigits rest
              if ds = [] then (none, cs3) else (some (Int.ofNat (digitsToNat ds)), r)
          else (some 0, cs3)
        | [] => (some 0, cs3)
      match expPart with
      | none => none
      | some e =>
        let mant : Nat := digitsToNat (ints ++ fracDigits)
        let m : Int := if neg then -(Int.ofNat mant) else Int.ofNat mant
        some (Json.num m (e - Int.ofNat fracDigits.length), cs4)

def isPrefixChars (pat cs : List Char) : Bool := pat.isPrefixOf cs

mutual

def parseValue : Nat → List Char → Option (Json × List Char)
  | 0, _ => none
  | fuel + 1, cs =>
    match skipWs cs with
    | [] => none
    | c :: rest =>
      if c = '"' then
        match parseStringBody (rest.length + 1) rest [] with
        | some (s, r) => some (Json.str s, r)
        | none => none
      else if c = Char.ofNat 123 then parseObjFields fuel rest []
      else if c = '[' then parseArrElems fuel rest []
      else if isPrefixChars ['t', 'r', 'u', 'e'] (c :: rest) then
        some (Json.bool true, rest.drop 3)
      else if isPrefixChars ['f', 'a', 'l', 's', 'e'] (c :: rest) then
        some (Json.bool false, rest.drop 4)
      else if isPrefixChars ['n', 'u', 'l', 'l'] (c :: rest) then
        some (Json.null, rest.drop 3)
      else parseNumber (c :: rest)
termination_by structural fuel => fuel

/-- Members of an object, after the opening brace or a separating comma. -/
def parseObjFields : Nat → List Char → List (String × Json) → Option (Json × List Char)
  | 0, _, _ => none
  | fuel + 1, cs, acc =>
    match skipWs cs with
    | [] => none
    | c :: rest =>
      if c = Char.ofNat 125 then
        if acc.isEmpty then some (Json.obj acc, rest) else none
      else
        if c = '"' then
          match parseStringBody (rest.length + 1) rest [] with
          | none => none
          | some (key, r1) =>
            match skipWs r1 with
            | ':' :: r2 =>
              match parseValue fuel r2 with
              | none => none
              | some (v, r3) =>
                match skipWs r3 with
                | ',' :: r4 => parseObjFields fuel r4 (mapSet acc key v)
                | c2 :: r4 =>
                  if c2 = Char.ofNat 125 then some (Json.obj (mapSet acc key v), r4)
                  else none
                | [] => none
            | _ => none
        else none
termination_by structural fuel => fuel

/-- Elements of an array, after the opening bracket or a separating comma. -/
def parseArrElems : Nat → List Char → List Json → Option (Json × List Char)
  | 0, _, _ => none
  | fuel + 1, cs, acc =>
    match skipWs cs with
    | [] => none
    | c :: rest =>
      if c = ']' then
        if acc.isEmpty then some (Json.arr acc.reverse, rest) else none
      else
        match parseValue fuel (c :: rest) with
        | none => none
        | some (v, r1) =>
          match skipWs r1 with
          | ',' :: r2 => parseArrElems fuel r2 (v :: acc)
          | ']' :: r2 => some (Json.arr (v :: acc).reverse, r2)
          | _ => none
termination_by structural fuel => fuel

end

/-- `JSON.parse`: a single JSON value with optional surrounding whitespace;
`none` models a thrown `SyntaxError`. -/
def jsonParse (s : String) : Option Json :=
  match parseValue (2 * s.data.length + 4) s.data with
  | some (v, rest) => if skipWs rest = [] then some v else none
  | none => none

/-! ## `KaiFixDetails.extractUpdatedFile` and result routing (src/kaiFix/kaiFix.ts)

`extractUpdatedFile` is dynamically typed JavaScript: it returns
`responseObj.updated_file` (any JSON value) when that field is present and
truthy, and fixed message strings otherwise.  The `'updated_file' in
responseObj` test throws a `TypeError` when the parsed value is a primitive
(number, string, boolean, `null`); that exception is caught by the same
`catch` that handles `JSON.parse` failures, so primitives yield the
parse-error message.  Arrays are objects in JavaScript, so an array reaches
the `in` test and takes the property-missing branch. -/

def parseErrorMessage : String := "An error occurred while parsing the JSON response."

def missingFieldMessage : String :=
  "The \"updated_file\" property does not exist in the response object."

def noContentMessage : String := "No content available in updated_file."

def extractUpdatedFile (jsonResponse : String) : Json :=
  match jsonParse jsonResponse with
  | none => Json.str parseErrorMessage
  | some responseObj =>
    match responseObj with
    | Json.obj fields =>
      match mlookup fields "updated_file" with
      | some updatedFileContent =>
        if updatedFileContent.truthy then updatedFileContent
        else Json.str noContentMessage
      | none => Json.str missingFieldMessage
    | Json.arr _ => Json.str missingFieldMessage
    | _ => Json.str parseErrorMessage

/-- Outcome of `KaiFixDetails.handleTaskResult`, the result-routing step: the
effect handed to the external collaborators (error notification, diff
presentation of a proposed content against the original file, or a tree
refresh for a re-analysed file). -/
inductive RouterOutcome : Type where
  | errorMessage (msg : String) : RouterOutcome
  | diffPresented (originalFilePath : String) (proposedContent : Json) : RouterOutcome
  | refreshFile (filePath : String) : RouterOutcome
  | noEffect : RouterOutcome

/-- Whether the outcome hands a proposed content to the diff presentation. -/
def RouterOutcome.handsContentToDiff : RouterOutcome → Bool
  | .diffPresented _ _ => true
  | _ => false

/-- A task result as delivered by the execution wrapper: either an `error`
field (backend failure, a non-empty message) or a `result` field carrying the
backend's raw response text. -/
structure TaskResult : Type where
  error : Option String := none
  result : String := ""

/-- `KaiFixDetails.handleTaskResult`: clears the per-file UI state, surfaces
an error verbatim and stops; otherwise for a `kai` task extracts the proposed
file content from the response and presents it as a diff against the original
file, and for a `kantra` task refreshes the file's tree node when one exists. -/
def handleTaskResult (fileUriFsPath : String) (result : TaskResult)
    (requestType : String) (hasFileNode : Bool) : RouterOutcome :=
  match result.error with
  | some e => .errorMessage e
  | none =>
    if requestType = "kai" then
      .diffPresented fileUriFsPath (extractUpdatedFile result.result)
    else if requestType = "kantra" then
      if hasFileNode then .refreshFile fileUriFsPath else .noEffect
    else .noEffect

/-! ## Path handling of the incident store

`FileIncidentManager.extractFilePath` is
`path.normalize(uri.replace('file://', ''))`; `String.prototype.replace` with
a string pattern replaces the first occurrence only, and `path.normalize` is
Node's POSIX normalization (collapse separators, resolve `.` and `..`,
preserve a trailing separator). -/

/-- JS `String.prototype.replace` with a string pattern: first occurrence. -/
def replaceFirstChars (pat repl : List Char) : List Char → List Char
  | [] => []
  | c :: rest =>
    if pat.isPrefixOf (c :: rest) then repl ++ (c :: rest).drop pat.length
    else c :: replaceFirstChars pat repl rest

def replaceFirst (s pat repl : String) : String :=
  String.mk (replaceFirstChars pat.data repl.data s.data)

def splitSep (sep : Char) : List Char → List (List Char)
  | [] => [[]]
  | c :: rest =>
    match splitSep sep rest with
    | [] => [[c]]
    | h :: t => if c = sep then [] :: h :: t else (c :: h) :: t

/-- Segment resolution of Node's `normalizeString` (POSIX): drop `.`, resolve
`..` against the accumulated segments, keeping leading `..` segments only for
relative paths. -/
def resolveSegs (isAbs : Bool) (segs : List (List Char)) : List (List Char) :=
  segs.foldl (fun acc seg =>
    if seg = ['.'] then acc
    else if seg = ['.', '.'] then
      if acc ≠ [] ∧ acc.getLast? ≠ some ['.', '.'] then acc.dropLast
      else if isAbs then acc else acc ++ [seg]
    else acc ++ [seg]) []

/-- Node `path.posix.normalize`. -/
def normalizePath (p : String) : String :=
  match p.data with
  | [] => "."
  | c :: cs =>
    let isAbs : Bool := c = '/'
    let hasTrailing : Bool := (c :: cs).getLast? = some '/'
    let segs := (splitSep '/' (c :: cs)).filter (fun seg => seg ≠ [])
    let out := resolveSegs isAbs segs
    let path0 := String.intercalate "/" (out.map String.mk)
    if path0 = "" then
      if isAbs then "/" else if hasTrailing then "./" else "."
    else
      let p1 := if hasTrailing then path0 ++ "/" else path0
      if isAbs then "/" ++ p1 else p1

/-! ## The incident store (`FileIncidentManager`, src/server/fileIncidentUtil.ts) -/

/-- `Incident.kind` values. -/
inductive Kind : Type where
  | hint : Kind
  | classification : Kind
  deriving DecidableEq, Repr

/-- A raw incident entry of the analysis report, before the parser assigns its
`kind` (the `Incident` interface minus `kind`). -/
structure RawIncident : Type where
  uri : String
  message : String := ""
  codeSnip : Option String := none
  lineNumber : Option Int := none
  «variables» : Option Json := none
  severity : Option Int := none

/-- The `Incident` interface of src/server/fileIncidentUtil.ts. -/
structure Incident : Type where
  kind : Kind
  uri : String
  message : String := ""
  codeSnip : Option String := none
  lineNumber : Option Int := none
  «variables» : Option Json := none
  severity : Option Int := none

/-- `incident.kind = this.mapKeyToKind(key)`: the parser sets `kind` on the
raw incident object and stores that same object. -/
def tagIncident (k : Kind) (r : RawIncident) : Incident :=
  { kind := k, uri := r.uri, message := r.message, codeSnip := r.codeSnip,
    lineNumber := r.lineNumber, «variables» := r.«variables», severity := r.severity }

/-- One value of a `violations`/`insights`/`unmatched`/`skipped` mapping:
`{ description, category, incidents }` with `incidents` possibly absent
(`ruleset[key][incidentKey].incidents || []`). -/
structure ViolationRec : Type where
  description : Option String := none
  category : Option String := none
  incidents : Option (List RawIncident) := none

/-- One rule-set record of the parsed report.  Each section is an optional
object, modelled as an association list in key-insertion order. -/
structure Ruleset : Type where
  name : Option String := none
  violations : Option (List (String × ViolationRec)) := none
  insights : Option (List (String × ViolationRec)) := none
  unmatched : Option (List (String × ViolationRec)) := none
  skipped : Option (List (String × ViolationRec)) := none

/-- Dynamic access `ruleset[key]` for the four section keys the parser
iterates. -/
def sectionOf (ruleset : Ruleset) (key : String) : Option (List (String × ViolationRec)) :=
  if key = "violations" then ruleset.violations
  else if key = "insights" then ruleset.insights
  else if key = "unmatched" then ruleset.unmatched
  else if key = "skipped" then ruleset.skipped
  else none

/-- The key list of `parseOutputYaml`'s section loop. -/
def fullParseKeys : List String := ["violations", "insights", "unmatched", "skipped"]

/-- `FileIncidentManager.mapKeyToKind`. -/
def mapKeyToKind (key : String) : Kind :=
  if key = "violations" then Kind.hint
  else if key = "skipped" then Kind.classification
  else Kind.hint

/-- `FileIncidentManager.extractFilePath`. -/
def extractFilePath (uri : String) : String :=
  normalizePath (replaceFirst uri "file://" "")

/-- The incident index: `fileIncidentsMap`. -/
def IncidentMap : Type := List (String × List Incident)

/-- The per-incident body of `parseOutputYaml`'s innermost loop:
`if (!map.has(fp)) map.set(fp, []); map.get(fp)?.push(incident)`. -/
def pushIncident (m : IncidentMap) (fp : String) (inc : Incident) : IncidentMap :=
  let m1 : IncidentMap := if (mlookup m fp).isSome then m else mapSet m fp []
  match mlookup m1 fp with
  | some l => mapSet m1 fp (l ++ [inc])
  | none => m1

/-- `FileIncidentManager.parseOutputYaml`, applied to the parsed report data:
the four nested loops over rule sets, section keys, section entries and
incidents, pushing each tagged incident onto the entry for its extracted file
path.  The pre-existing map is not cleared. -/
def parseOutputYaml (m : IncidentMap) (parsedData : List Ruleset) : IncidentMap :=
  parsedData.foldl (fun m1 ruleset =>
    fullParseKeys.foldl (fun m2 key =>
      match sectionOf ruleset key with
      | none => m2
      | some entries =>
        entries.foldl (fun m3 entry =>
          (entry.2.incidents.getD []).foldl (fun m4 incident =>
            pushIncident m4 (extractFilePath incident.uri)
              (tagIncident (mapKeyToKind key) incident)) m3) m2) m1) m

/-- The read-and-parse stage of `parseOutputYaml`: `fs.readFileSync` and
`yaml.parse` run before the loops, so a thrown read or YAML syntax error
propagates before any map mutation.  The filesystem and the YAML library are
external; their combined outcome is the `yamlResult` input. -/
def parseOutputYamlRun (m : IncidentMap) (yamlResult : Except String (List Ruleset)) :
    IncidentMap × Except String Unit :=
  match yamlResult with
  | .error e => (m, .error e)
  | .ok parsedData => (parseOutputYaml m parsedData, .ok ())

/-- The `newIncidents` array built by `FileIncidentManager.updateFileIncidents`:
only the `violations` sections of the partial report are iterated, and only
incidents whose extracted path equals the normalized target path are kept. -/
def parseIncidentsForFile (parsedData : List Ruleset) (filePath : String) : List Incident :=
  parsedData.foldl (fun acc1 ruleset =>
    ["violations"].foldl (fun acc2 key =>
      match sectionOf ruleset key with
      | none => acc2
      | some entries =>
        entries.foldl (fun acc3 entry =>
          (entry.2.incidents.getD []).foldl (fun acc4 incident =>
            if normalizePath (extractFilePath incident.uri) = normalizePath filePath then
              acc4 ++ [tagIncident (mapKeyToKind key) incident]
            else acc4) acc3) acc2) acc1) []

/-- `FileIncidentManager.updateFileIncidents`, applied to the parsed partial
report: replace the entry for the normalized path with the freshly parsed
incidents. -/
def updateFileIncidents (m : IncidentMap) (parsedData : List Ruleset)
    (filePath : String) : IncidentMap :=
  mapSet m (normalizePath filePath) (parseIncidentsForFile parsedData filePath)

/-- `FileIncidentManager.getIncidentsForFile`. -/
def getIncidentsForFile (m : IncidentMap) (filePath : String) : Option (List Incident) :=
  mlookup m (normalizePath filePath)

/-! ## The task queue and scheduler (`ProcessController`, taskprovider module)

The module-level queue `requests`, the `fileStateMap`, the `runningTasks` map
and the two active-task sets form one scheduler state.  The payload `data` of
a request is opaque to the scheduler and omitted.  Admission
(`processQueue`), start (`startTask`), completion (`completeTask`),
cancellation (`cancelTask`) and the completion guard of
`SimplePseudoterminal.runTask` run between `await` points, so each is one
atomic step of the state machine. -/

/-- The two worker kinds of `Requests.type`. -/
inductive WType : Type where
  | kai : WType
  | kantra : WType
  deriving DecidableEq, Repr

/-- The `Requests` interface (payload `data` omitted as opaque). -/
structure Requests : Type where
  id : Nat
  name : String
  type : WType
  file : String
  deriving DecidableEq, Repr

/-- A `fileStateMap` value: `{ inProgress, taskExecution? }`, with the
execution handle identified by the owning task's id. -/
structure FileSt : Type where
  inProgress : Bool
  taskExecution : Option Nat
  deriving DecidableEq, Repr

/-- A `runningTasks` entry: the task id (the map key), its `workerType`, and
the file and name of the request held by its pseudoterminal. -/
structure RunEntry : Type where
  id : Nat
  workerType : WType
  file : String
  name : String
  deriving DecidableEq, Repr

/-- The complete scheduler state: module-level `taskcounter`, `requests`,
`fileStateMap` and `runningTasks`, plus the `ProcessController` fields. -/
structure SchedState : Type where
  taskcounter : Nat
  requests : List Requests
  fileStateMap : List (String × FileSt)
  runningTasks : List RunEntry
  activeKaiTasks : List Nat
  activeKantraTasks : List Nat
  maxKaiWorkers : Nat
  maxKantraWorkers : Nat
  deriving DecidableEq, Repr

/-- `Set.add`: append when absent. -/
def setAdd (s : List Nat) (x : Nat) : List Nat := if x ∈ s then s else s ++ [x]

/-- `Set.delete`. -/
def setDelete (s : List Nat) (x : Nat) : List Nat := s.filter (fun y => y ≠ x)

/-- The active set for a worker kind. -/
def activeOf (s : SchedState) : WType → List Nat
  | .kai => s.activeKaiTasks
  | .kantra => s.activeKantraTasks

/-- `ProcessController.isFileInProgress`:
`fileStateMap.get(filePath)?.inProgress || false`. -/
def isFileInProgress (s : SchedState) (filePath : String) : Bool :=
  match mlookup s.fileStateMap filePath with
  | some st => st.inProgress
  | none => false

/-- `ProcessController.updateFileState`: every call site supplies both fields,
so the object-spread merge is a plain overwrite. -/
def updateFileState (s : SchedState) (filePath : String) (st : FileSt) : SchedState :=
  { s with fileStateMap := mapSet s.fileStateMap filePath st }

/-- `ProcessController.startTask`: `executeTask` spawns the pseudoterminal,
the fresh execution handle is registered under the request id in
`runningTasks`, and the file state records the handle. -/
def startTask (s : SchedState) (request : Requests) : SchedState :=
  let s1 := { s with runningTasks :=
    s.runningTasks ++ [⟨request.id, request.type, request.file, request.name⟩] }
  updateFileState s1 request.file ⟨true, some request.id⟩

/-- One iteration of `ProcessController.processQueue`'s loop body for `task`:
admit it when its kind has a free worker slot and its file is not in
progress; admission adds the id to the kind's active set, marks the file in
progress, starts the task and removes the request from the queue. -/
def admitOne (s : SchedState) (task : Requests) : SchedState :=
  match task.type with
  | .kai =>
    if s.activeKaiTasks.length < s.maxKaiWorkers then
      if isFileInProgress s task.file then s
      else
        let s1 := { s with activeKaiTasks := setAdd s.activeKaiTasks task.id }
        let s2 := updateFileState s1 task.file ⟨true, none⟩
        let s3 := startTask s2 task
        { s3 with requests := s3.requests.filter (fun req => req.id ≠ task.id) }
    else s
  | .kantra =>
    if s.activeKantraTasks.length < s.maxKantraWorkers then
      if isFileInProgress s task.file then s
      else
        let s1 := { s with activeKantraTasks := setAdd s.activeKantraTasks task.id }
        let s2 := updateFileState s1 task.file ⟨true, none⟩
        let s3 := startTask s2 task
        { s3 with requests := s3.requests.filter (fun req => req.id ≠ task.id) }
    else s

/-- `ProcessController.processQueue`: the `for (const task of requests)` loop
iterates the array snapshot taken at entry while admissions rebind the
module-level `requests`. -/
def processQueue (s : SchedState) : SchedState := s.requests.foldl admitOne s

/-- The bookkeeping of `ProcessController.completeTask` before its trailing
`processQueue` call (`handleTaskResult` is an external effect on the result
router, not on scheduler state). -/
def completeTaskCore (s : SchedState) (request : Requests) : SchedState :=
  let s1 := match request.type with
    | .kai => { s with activeKaiTasks := setDelete s.activeKaiTasks request.id }
    | .kantra => { s with activeKantraTasks := setDelete s.activeKantraTasks request.id }
  let s2 := { s1 with runningTasks := s1.runningTasks.filter (fun e => e.id ≠ request.id) }
  updateFileState s2 request.file ⟨false, none⟩

/-- `ProcessController.completeTask`. -/
def completeTask (s : SchedState) (request : Requests) : SchedState :=
  processQueue (completeTaskCore s request)

/-- `runningTasks.get(id)`. -/
def findRunning (l : List RunEntry) (id : Nat) : Option RunEntry :=
  l.find? (fun e => e.id = id)

/-- The bookkeeping of `ProcessController.cancelTask` before its trailing
`processQueue` call: for a running id, terminate the execution (external),
drop it from `runningTasks` and from its kind's active set, and clear the
state of the file whose recorded execution handle matches; for a non-running
id, filter it out of the queue. -/
def cancelTaskCore (s : SchedState) (id : Nat) : SchedState :=
  match findRunning s.runningTasks id with
  | some exeProcess =>
    let s1 := { s with runningTasks := s.runningTasks.filter (fun e => e.id ≠ id) }
    let s2 := match exeProcess.workerType with
      | .kai => { s1 with activeKaiTasks := setDelete s1.activeKaiTasks id }
      | .kantra => { s1 with activeKantraTasks := setDelete s1.activeKantraTasks id }
    match s2.fileStateMap.find? (fun p => p.2.taskExecution = some id) with
    | some p => updateFileState s2 p.1 ⟨false, none⟩
    | none => s2
  | none => { s with requests := s.requests.filter (fun task => task.id ≠ id) }

/-- `ProcessController.cancelTask`. -/
def cancelTask (s : SchedState) (id : Nat) : SchedState :=
  processQueue (cancelTaskCore s id)

/-- The tail of `SimplePseudoterminal.runTask` once the underlying operation's
result arrives: the completion callback fires only when the task id is still
tracked in `runningTasks`; the boolean records whether `completeTask` was
invoked. -/
def runTaskFinish (s : SchedState) (request : Requests) : SchedState × Bool :=
  if s.runningTasks.any (fun e => e.id = request.id) then (completeTask s request, true)
  else (s, false)

/-- `incrementTaskCounter`. -/
def incrementTaskCounter (s : SchedState) : SchedState × Nat :=
  ({ s with taskcounter := s.taskcounter + 1 }, s.taskcounter + 1)

/-- `addRequest`. -/
def addRequest (s : SchedState) (request : Requests) : SchedState :=
  { s with requests := s.requests ++ [request] }

/-- How both call sites enqueue work: a fresh id from `incrementTaskCounter`,
then `addRequest`. -/
def enqueueRequest (s : SchedState) (name : String) (ty : WType) (file : String) : SchedState :=
  let p := incrementTaskCounter s
  addRequest p.1 ⟨p.2, name, ty, file⟩

/-- The `ProcessController` constructor state. -/
def initController (maxKaiWorkers maxKantraWorkers : Nat) : SchedState :=
  { taskcounter := 0, requests := [], fileStateMap := [], runningTasks := [],
    activeKaiTasks := [], activeKantraTasks := [],
    maxKaiWorkers := maxKaiWorkers, maxKantraWorkers := maxKantraWorkers }

/-- `MyTaskProvider`'s construction: `new ProcessController(2, 2, ...)`. -/
def myTaskProviderState : SchedState := initController 2 2

/-- The request held by a running task's pseudoterminal. -/
def reqOf (e : RunEntry) : Requests := ⟨e.id, e.name, e.workerType, e.file⟩

/-- Reachable scheduler states: the constructor state followed by any
interleaving of enqueues, admission passes (the poll loop or the explicit
`processQueue` calls after enqueuing), result deliveries for running tasks,
and cancellations. -/
inductive Reachable : SchedState → Prop where
  | init (mk mkt : Nat) : Reachable (initController mk mkt)
  | enqueue {s : SchedState} (name : String) (ty : WType) (file : String) :
      Reachable s → Reachable (enqueueRequest s name ty file)
  | poll {s : SchedState} : Reachable s → Reachable (processQueue s)
  | deliver {s : SchedState} {e : RunEntry} :
      Reachable s → e ∈ s.runningTasks → Reachable (runTaskFinish s (reqOf e)).1
  | cancel {s : SchedState} (id : Nat) : Reachable s → Reachable (cancelTask s id)

/-! ## Further association-map lemmas -/

theorem mlookup_mapSet {α : Type} (m : List (String × α)) (k k' : String) (v : α) :
    mlookup (mapSet m k v) k' = if k' = k then some v else mlookup m k' := by
  by_cases h : k' = k
  · subst h
    simp [mlookup_mapSet_self]
  · simp [h, mlookup_mapSet_ne m k k' v h]

theorem mlookup_mem {α : Type} {m : List (String × α)} {k : String} {v : α}
    (h : mlookup m k = some v) : (k, v) ∈ m := by
  induction m with
  | nil => simp [mlookup] at h
  | cons p rest ih =>
    obtain ⟨k0, v0⟩ := p
    by_cases h0 : k0 = k
    · subst h0
      simp [mlookup] at h
      simp [h]
    · simp [mlookup, h0] at h
      exact List.mem_cons_of_mem _ (ih h)

theorem mlookup_eq_none {α : Type} {m : List (String × α)} {k : String} :
    mlookup m k = none ↔ k ∉ m.map Prod.fst := by
  induction m with
  | nil => simp [mlookup]
  | cons p rest ih =>
    obtain ⟨k0, v0⟩ := p
    by_cases h0 : k0 = k
    · subst h0
      simp [mlookup]
    · simp [mlookup, h0, ih, Ne.symm h0]

theorem mapSet_keys {α : Type} (m : List (String × α)) (k : String) (v : α) :
    (mapSet m k v).map Prod.fst =
      if k ∈ m.map Prod.fst then m.map Prod.fst else m.map Prod.fst ++ [k] := by
  induction m with
  | nil => simp [mapSet]
  | cons p rest ih =>
    obtain ⟨k0, v0⟩ := p
    by_cases h0 : k0 = k
    · subst h0
      simp [mapSet]
    · simp only [mapSet, if_neg h0, List.map_cons, ih]
      by_cases hk : k ∈ rest.map Prod.fst
      · simp [hk, Ne.symm h0]
      · simp [hk, Ne.symm h0]

theorem mapSet_keys_nodup {α : Type} {m : List (String × α)} {k : String} {v : α}
    (h : (m.map Prod.fst).Nodup) : ((mapSet m k v).map Prod.fst).Nodup := by
  rw [mapSet_keys]
  by_cases hk : k ∈ m.map Prod.fst
  · simpa [hk] using h
  · simp only [if_neg hk]
    refine h.append (List.nodup_singleton k) ?_
    intro a ha hb
    simp only [List.mem_singleton] at hb
    subst hb
    exact hk ha

theorem mlookup_of_mem_nodup {α : Type} {m : List (String × α)} {k : String} {v : α}
    (hn : (m.map Prod.fst).Nodup) (h : (k, v) ∈ m) : mlookup m k = some v := by
  induction m with
  | nil => simp at h
  | cons p rest ih =>
    obtain ⟨k0, v0⟩ := p
    simp only [List.map_cons, List.nodup_cons] at hn
    rcases List.mem_cons.mp h with h | h
    · obtain ⟨rfl, rfl⟩ := Prod.mk.injEq .. ▸ h
      simp [mlookup]
    · have hk0 : k0 ≠ k := by
        rintro rfl
        exact hn.1 (List.mem_map_of_mem Prod.fst h)
      simp [mlookup, hk0, ih hn.2 h]

/-! ## Set lemmas -/

theorem mem_setAdd_self (s : List Nat) (x : Nat) : x ∈ setAdd s x := by
  unfold setAdd
  split
  · assumption
  · simp

theorem mem_setAdd_of_mem {s : List Nat} {y : Nat} (x : Nat) (h : y ∈ s) : y ∈ setAdd s x := by
  unfold setAdd
  split
  · assumption
  · simp [h]

theorem mem_setAdd {s : List Nat} {x y : Nat} (h : y ∈ setAdd s x) : y ∈ s ∨ y = x := by
  unfold setAdd at h
  split at h
  · exact Or.inl h
  · simpa using h

theorem setAdd_length (s : List Nat) (x : Nat) : (setAdd s x).length ≤ s.length + 1 := by
  unfold setAdd
  split
  · omega
  · simp

theorem setDelete_length (s : List Nat) (x : Nat) : (setDelete s x).length ≤ s.length :=
  (List.filter_sublist s).length_le

theorem mem_setDelete {s : List Nat} {x y : Nat} :
    y ∈ setDelete s x ↔ y ∈ s ∧ y ≠ x := by
  simp [setDelete]

/-- A duplicate-free list whose elements satisfying `p` are pairwise equal has
at most one element satisfying `p`. -/
theorem filter_length_le_one {α : Type} {l : List α} {p : α → Bool} (hn : l.Nodup)
    (h : ∀ a ∈ l, ∀ b ∈ l, p a = true → p b = true → a = b) :
    (l.filter p).length ≤ 1 := by
  have hfn : (l.filter p).Nodup := hn.filter p
  rcases hf : l.filter p with _ | ⟨a, _ | ⟨b, t⟩⟩
  · simp
  · simp
  · exfalso
    have ha : a ∈ l.filter p := by simp [hf]
    have hb : b ∈ l.filter p := by simp [hf]
    have hab : a = b :=
      h a (List.mem_of_mem_filter ha) b (List.mem_of_mem_filter hb)
        (List.of_mem_filter ha) (List.of_mem_filter hb)
    rw [hf] at hfn
    simp [hab] at hfn

/-! ## The scheduler invariant -/

/-- The queued ids. -/
def qIds (s : SchedState) : List Nat := s.requests.map (fun r => r.id)

/-- The running ids. -/
def runIds (s : SchedState) : List Nat := s.runningTasks.map (fun e => e.id)

/-- The per-kind capacity (`maxKaiWorkers` / `maxKantraWorkers`). -/
def maxOf (s : SchedState) : WType → Nat
  | .kai => s.maxKaiWorkers
  | .kantra => s.maxKantraWorkers

/-- The inductive invariant of the scheduler state machine. -/
structure Inv (s : SchedState) : Prop where
  nodupIds : (qIds s ++ runIds s).Nodup
  idBound : ∀ i ∈ qIds s ++ runIds s, i ≤ s.taskcounter
  kaiCap : s.activeKaiTasks.length ≤ s.maxKaiWorkers
  kantraCap : s.activeKantraTasks.length ≤ s.maxKantraWorkers
  runInActive : ∀ e ∈ s.runningTasks, e.id ∈ activeOf s e.workerType
  fileNodup : (s.fileStateMap.map Prod.fst).Nodup
  runFile : ∀ e ∈ s.runningTasks,
    mlookup s.fileStateMap e.file = some ⟨true, some e.id⟩
  progRun : ∀ f st, mlookup s.fileStateMap f = some st → st.inProgress = true →
    ∃ e ∈ s.runningTasks, e.file = f ∧ st.taskExecution = some e.id
  execRun : ∀ f st i, mlookup s.fileStateMap f = some st → st.taskExecution = some i →
    ∃ e ∈ s.runningTasks, e.id = i ∧ e.file = f

theorem Inv.run_id_inj {s : SchedState} (h : Inv s) :
    ∀ a ∈ s.runningTasks, ∀ b ∈ s.runningTasks, a.id = b.id → a = b := by
  intro a ha b hb hab
  have hnd : (runIds s).Nodup := (List.nodup_append.mp h.nodupIds).2.1
  exact List.inj_on_of_nodup_map hnd ha hb hab

theorem Inv.qid_not_run {s : SchedState} (h : Inv s) {i : Nat}
    (hq : i ∈ qIds s) : i ∉ runIds s :=
  fun hr => List.disjoint_of_nodup_append h.nodupIds hq hr

/-! ## The admission step -/

/-- The state produced by an admitting iteration of `processQueue`'s loop:
active-set insertion, file-state update, `startTask`, queue removal. -/
def admitState (s : SchedState) (task : Requests) : SchedState :=
  let s1 := match task.type with
    | .kai => { s with activeKaiTasks := setAdd s.activeKaiTasks task.id }
    | .kantra => { s with activeKantraTasks := setAdd s.activeKantraTasks task.id }
  let s2 := updateFileState s1 task.file ⟨true, none⟩
  let s3 := startTask s2 task
  { s3 with requests := s3.requests.filter (fun req => req.id ≠ task.id) }

theorem admitState_requests (s : SchedState) (t : Requests) :
    (admitState s t).requests = s.requests.filter (fun req => req.id ≠ t.id) := by
  rcases t with ⟨i, n, ty, f⟩
  cases ty <;> rfl

theorem admitState_runningTasks (s : SchedState) (t : Requests) :
    (admitState s t).runningTasks = s.runningTasks ++ [⟨t.id, t.type, t.file, t.name⟩] := by
  rcases t with ⟨i, n, ty, f⟩
  cases ty <;> rfl

theorem admitState_fileStateMap (s : SchedState) (t : Requests) :
    (admitState s t).fileStateMap =
      mapSet (mapSet s.fileStateMap t.file ⟨true, none⟩) t.file ⟨true, some t.id⟩ := by
  rcases t with ⟨i, n, ty, f⟩
  cases ty <;> rfl

theorem admitState_taskcounter (s : SchedState) (t : Requests) :
    (admitState s t).taskcounter = s.taskcounter := by
  rcases t with ⟨i, n, ty, f⟩
  cases ty <;> rfl

theorem admitState_activeOf (s : SchedState) (t : Requests) (ty : WType) :
    activeOf (admitState s t) ty =
      if ty = t.type then setAdd (activeOf s t.type) t.id else activeOf s ty := by
  rcases t with ⟨i, n, ty', f⟩
  cases ty' <;> cases ty <;> rfl

theorem admitState_maxOf (s : SchedState) (t : Requests) (ty : WType) :
    maxOf (admitState s t) ty = maxOf s ty := by
  rcases t with ⟨i, n, ty', f⟩
  cases ty' <;> cases ty <;> rfl

/-- Each loop iteration either leaves the state unchanged or admits the task,
and admission happens only under the capacity and file-exclusion guards. -/
theorem admitOne_cases (s : SchedState) (t : Requests) :
    admitOne s t = s ∨
      (admitOne s t = admitState s t ∧ isFileInProgress s t.file = false ∧
        (activeOf s t.type).length < maxOf s t.type) := by
  rcases t with ⟨i, n, ty, f⟩
  cases ty
  · by_cases hcap : s.activeKaiTasks.length < s.maxKaiWorkers
    · by_cases hprog : isFileInProgress s f
      · left
        simp [admitOne, hcap, hprog]
      · right
        refine ⟨?_, by simpa using hprog, by simpa [activeOf, maxOf] using hcap⟩
        simp only [admitOne, hcap, if_true]
        rw [if_neg (by simpa using hprog)]
        rfl
    · left
      simp [admitOne, hcap]
  · by_cases hcap : s.activeKantraTasks.length < s.maxKantraWorkers
    · by_cases hprog : isFileInProgress s f
      · left
        simp [admitOne, hcap, hprog]
      · right
        refine ⟨?_, by simpa using hprog, by simpa [activeOf, maxOf] using hcap⟩
        simp only [admitOne, hcap, if_true]
        rw [if_neg (by simpa using hprog)]
        rfl
    · left
      simp [admitOne, hcap]

/-- The admitting iteration preserves the invariant, for a task drawn from the
queue, under the two admission guards. -/
theorem inv_admitState {s : SchedState} {t : Requests} (hInv : Inv s)
    (ht : t ∈ s.requests) (hprog : isFileInProgress s t.file = false)
    (hcap : (activeOf s t.type).length < maxOf s t.type) : Inv (admitState s t) := by
  have htq : t.id ∈ qIds s := List.mem_map_of_mem _ ht
  have htnr : t.id ∉ runIds s := hInv.qid_not_run htq
  have hqfs : qIds (admitState s t) = (s.requests.filter (fun req => req.id ≠ t.id)).map (fun r => r.id) := by
    rw [qIds, admitState_requests]
  have hqsub : List.Sublist (qIds (admitState s t)) (qIds s) := by
    rw [hqfs]
    exact (List.filter_sublist s.requests).map _
  have hrun : runIds (admitState s t) = runIds s ++ [t.id] := by
    rw [runIds, admitState_runningTasks]
    simp [runIds]
  have hnewlook : ∀ f', mlookup (admitState s t).fileStateMap f' =
      if f' = t.file then some ⟨true, some t.id⟩ else mlookup s.fileStateMap f' := by
    intro f'
    rw [admitState_fileStateMap, mlookup_mapSet]
    by_cases hf : f' = t.file
    · simp [hf]
    · simp [hf, mlookup_mapSet_ne _ _ _ _ hf]
  have hqnotid : t.id ∉ qIds (admitState s t) := by
    rw [hqfs]
    intro hmem
    obtain ⟨r, hr, hrid⟩ := List.mem_map.mp hmem
    have := List.of_mem_filter hr
    simp at this
    exact this hrid
  refine ⟨?_, ?_, ?_, ?_, ?_, ?_, ?_, ?_, ?_⟩
  · -- nodupIds
    rw [hrun]
    have h1 : (qIds (admitState s t)).Nodup :=
      ((List.nodup_append.mp hInv.nodupIds).1).sublist hqsub
    have h2 : (runIds s).Nodup := (List.nodup_append.mp hInv.nodupIds).2.1
    have hdisj : List.Disjoint (qIds s) (runIds s) := (List.nodup_append.mp hInv.nodupIds).2.2
    refine List.nodup_append.mpr ⟨h1, ?_, ?_⟩
    · refine List.nodup_append.mpr ⟨h2, List.nodup_singleton _, ?_⟩
      intro a ha hb
      simp only [List.mem_singleton] at hb
      subst hb
      exact htnr ha
    · intro a ha hb
      have haq : a ∈ qIds s := hqsub.subset ha
      rcases List.mem_append.mp hb with hb | hb
      · exact hdisj haq hb
      · simp only [List.mem_singleton] at hb
        subst hb
        exact hqnotid ha
  · -- idBound
    intro i hi
    rw [admitState_taskcounter]
    rcases List.mem_append.mp hi with hi | hi
    · exact hInv.idBound i (List.mem_append.mpr (Or.inl (hqsub.subset hi)))
    · rw [hrun] at hi
      rcases List.mem_append.mp hi with hi | hi
      · exact hInv.idBound i (List.mem_append.mpr (Or.inr hi))
      · simp only [List.mem_singleton] at hi
        subst hi
        exact hInv.idBound t.id (List.mem_append.mpr (Or.inl htq))
  · -- kaiCap
    have := admitState_activeOf s t WType.kai
    have hm := admitState_maxOf s t WType.kai
    by_cases hk : WType.kai = t.type
    · have hcap' := hcap
      rw [← hk] at hcap'
      calc (admitState s t).activeKaiTasks.length
          = (activeOf (admitState s t) WType.kai).length := rfl
        _ = (setAdd (activeOf s t.type) t.id).length := by rw [this, if_pos hk]
        _ ≤ (activeOf s t.type).length + 1 := setAdd_length _ _
        _ ≤ maxOf s t.type := by omega
        _ = (admitState s t).maxKaiWorkers := by rw [← hk]; exact (admitState_maxOf s t WType.kai).symm
    · calc (admitState s t).activeKaiTasks.length
          = (activeOf (admitState s t) WType.kai).length := rfl
        _ = (activeOf s WType.kai).length := by rw [this, if_neg hk]
        _ ≤ s.maxKaiWorkers := hInv.kaiCap
        _ = (admitState s t).maxKaiWorkers := (admitState_maxOf s t WType.kai).symm
  · -- kantraCap
    have := admitState_activeOf s t WType.kantra
    by_cases hk : WType.kantra = t.type
    · have hcap' := hcap
      rw [← hk] at hcap'
      calc (admitState s t).activeKantraTasks.length
          = (activeOf (admitState s t) WType.kantra).length := rfl
        _ = (setAdd (activeOf s t.type) t.id).length := by rw [this, if_pos hk]
        _ ≤ (activeOf s t.type).length + 1 := setAdd_length _ _
        _ ≤ maxOf s t.type := by omega
        _ = (admitState s t).maxKantraWorkers := by rw [← hk]; exact (admitState_maxOf s t WType.kantra).symm
    · calc (admitState s t).activeKantraTasks.length
          = (activeOf (admitState s t) WType.kantra).length := rfl
        _ = (activeOf s WType.kantra).length := by rw [this, if_neg hk]
        _ ≤ s.maxKantraWorkers := hInv.kantraCap
        _ = (admitState s t).maxKantraWorkers := (admitState_maxOf s t WType.kantra).symm
  · -- runInActive
    intro e he
    rw [admitState_runningTasks] at he
    rw [admitState_activeOf]
    rcases List.mem_append.mp he with he | he
    · by_cases hty : e.workerType = t.type
      · rw [if_pos hty, ← hty]
        exact mem_setAdd_of_mem _ (hInv.runInActive e he)
      · rw [if_neg hty]
        exact hInv.runInActive e he
    · simp only [List.mem_singleton] at he
      subst he
      simp only [if_pos rfl]
      exact mem_setAdd_self _ _
  · -- fileNodup
    rw [admitState_fileStateMap]
    exact mapSet_keys_nodup (mapSet_keys_nodup hInv.fileNodup)
  · -- runFile
    intro e he
    rw [admitState_runningTasks] at he
    rw [hnewlook]
    rcases List.mem_append.mp he with he | he
    · have hne : e.file ≠ t.file := by
        intro hf
        have := hInv.runFile e he
        rw [hf] at this
        simp [isFileInProgress, this] at hprog
      rw [if_neg hne]
      exact hInv.runFile e he
    · simp only [List.mem_singleton] at he
      subst he
      simp
  · -- progRun
    intro f st hlook hprogst
    rw [hnewlook] at hlook
    by_cases hf : f = t.file
    · rw [if_pos hf] at hlook
      obtain rfl := Option.some.inj hlook
      refine ⟨⟨t.id, t.type, t.file, t.name⟩, ?_, by simpa using hf.symm, rfl⟩
      rw [admitState_runningTasks]
      simp
    · rw [if_neg hf] at hlook
      obtain ⟨e, he, hef, hex⟩ := hInv.progRun f st hlook hprogst
      refine ⟨e, ?_, hef, hex⟩
      rw [admitState_runningTasks]
      exact List.mem_append.mpr (Or.inl he)
  · -- execRun
    intro f st i hlook hex
    rw [hnewlook] at hlook
    by_cases hf : f = t.file
    · rw [if_pos hf] at hlook
      obtain rfl := Option.some.inj hlook
      simp only at hex
      obtain rfl := Option.some.inj hex
      refine ⟨⟨t.id, t.type, t.file, t.name⟩, ?_, rfl, hf.symm⟩
      rw [admitState_runningTasks]
      simp
    · rw [if_neg hf] at hlook
      obtain ⟨e, he, hei, hef⟩ := hInv.execRun f st i hlook hex
      refine ⟨e, ?_, hei, hef⟩
      rw [admitState_runningTasks]
      exact List.mem_append.mpr (Or.inl he)

/-- The admission pass preserves the invariant when folded over any sublist of
the queue (`processQueue` folds it over the snapshot of the whole queue). -/
theorem inv_foldl_admit :
    ∀ (pending : List Requests) (s : SchedState), Inv s →
      List.Sublist pending s.requests → Inv (pending.foldl admitOne s) := by
  intro pending
  induction pending with
  | nil => intro s hInv _; exact hInv
  | cons t ts ih =>
    intro s hInv hsub
    rcases admitOne_cases s t with hskip | ⟨hadm, hprog, hcap⟩
    · rw [List.foldl_cons, hskip]
      exact ih s hInv ((List.sublist_cons_self t ts).trans hsub)
    · rw [List.foldl_cons, hadm]
      have htmem : t ∈ s.requests := hsub.subset (List.mem_cons_self t ts)
      have hIds : ((t :: ts).map (fun r => r.id)).Nodup := by
        have : List.Sublist ((t :: ts).map (fun r => r.id)) (qIds s) := hsub.map _
        exact ((List.nodup_append.mp hInv.nodupIds).1).sublist this
      have hne : ∀ r ∈ ts, r.id ≠ t.id := by
        intro r hr hrid
        simp only [List.map_cons, List.nodup_cons] at hIds
        exact hIds.1 (hrid ▸ List.mem_map_of_mem _ hr)
      have hts : List.Sublist ts (admitState s t).requests := by
        rw [admitState_requests]
        have h1 : ts.filter (fun req => req.id ≠ t.id) = ts :=
          List.filter_eq_self.mpr (fun r hr => by simpa using hne r hr)
        have h2 : List.Sublist ts s.requests := (List.sublist_cons_self t ts).trans hsub
        rw [← h1]
        exact h2.filter _
      exact ih _ (inv_admitState hInv htmem hprog hcap) hts

/-- `processQueue` preserves the invariant. -/
theorem inv_processQueue {s : SchedState} (hInv : Inv s) : Inv (processQueue s) :=
  inv_foldl_admit s.requests s hInv (List.Sublist.refl _)

/-! ### What an admission pass can add: only ids taken from the queue -/

theorem runIds_admitOne_subset (s : SchedState) (t : Requests) :
    runIds (admitOne s t) ⊆ runIds s ++ [t.id] := by
  rcases admitOne_cases s t with h | ⟨h, _, _⟩ <;> rw [h]
  · exact fun x hx => List.mem_append.mpr (Or.inl hx)
  · rw [runIds, admitState_runningTasks]
    simp [runIds, List.Subset.refl]

theorem qIds_admitOne_subset (s : SchedState) (t : Requests) :
    qIds (admitOne s t) ⊆ qIds s := by
  rcases admitOne_cases s t with h | ⟨h, _, _⟩ <;> rw [h]
  · exact List.Subset.refl _
  · rw [qIds, admitState_requests]
    intro x hx
    obtain ⟨r, hr, hrid⟩ := List.mem_map.mp hx
    exact hrid ▸ List.mem_map_of_mem _ (List.mem_of_mem_filter hr)

theorem activeOf_admitOne_subset (s : SchedState) (t : Requests) (ty : WType) :
    activeOf (admitOne s t) ty ⊆ activeOf s ty ++ [t.id] := by
  rcases admitOne_cases s t with h | ⟨h, _, _⟩ <;> rw [h]
  · exact fun x hx => List.mem_append.mpr (Or.inl hx)
  · rw [admitState_activeOf]
    by_cases hty : ty = t.type
    · rw [if_pos hty, hty]
      intro x hx
      rcases mem_setAdd hx with hx | hx
      · exact List.mem_append.mpr (Or.inl hx)
      · exact List.mem_append.mpr (Or.inr (by simp [hx]))
    · rw [if_neg hty]
      exact fun x hx => List.mem_append.mpr (Or.inl hx)

theorem runIds_foldl_subset :
    ∀ (pending : List Requests) (s : SchedState),
      runIds (pending.foldl admitOne s) ⊆ runIds s ++ pending.map (fun r => r.id) := by
  intro pending
  induction pending with
  | nil => intro s; simp [List.Subset.refl]
  | cons t ts ih =>
    intro s x hx
    have := ih (admitOne s t) hx
    rcases List.mem_append.mp this with hx1 | hx1
    · rcases List.mem_append.mp (runIds_admitOne_subset s t hx1) with h | h
      · exact List.mem_append.mpr (Or.inl h)
      · simp only [List.mem_singleton] at h
        simp [h]
    · simp [hx1]

theorem qIds_foldl_subset :
    ∀ (pending : List Requests) (s : SchedState),
      qIds (pending.foldl admitOne s) ⊆ qIds s := by
  intro pending
  induction pending with
  | nil => intro s; exact List.Subset.refl _
  | cons t ts ih =>
    intro s x hx
    exact qIds_admitOne_subset s t (ih (admitOne s t) hx)

theorem activeOf_foldl_subset :
    ∀ (pending : List Requests) (s : SchedState) (ty : WType),
      activeOf (pending.foldl admitOne s) ty ⊆ activeOf s ty ++ pending.map (fun r => r.id) := by
  intro pending
  induction pending with
  | nil => intro s ty; simp [List.Subset.refl]
  | cons t ts ih =>
    intro s ty x hx
    have := ih (admitOne s t) ty hx
    rcases List.mem_append.mp this with hx1 | hx1
    · rcases List.mem_append.mp (activeOf_admitOne_subset s t ty hx1) with h | h
      · exact List.mem_append.mpr (Or.inl h)
      · simp only [List.mem_singleton] at h
        simp [h]
    · simp [hx1]

/-! ### Enqueue preserves the invariant -/

theorem inv_enqueueRequest {s : SchedState} (hInv : Inv s)
    (name : String) (ty : WType) (file : String) :
    Inv (enqueueRequest s name ty file) := by
  have hq : qIds (enqueueRequest s name ty file) = qIds s ++ [s.taskcounter + 1] := by
    simp [enqueueRequest, incrementTaskCounter, addRequest, qIds]
  have hr : runIds (enqueueRequest s name ty file) = runIds s := rfl
  have hfresh : s.taskcounter + 1 ∉ qIds s ++ runIds s := by
    intro h
    have := hInv.idBound _ h
    omega
  refine ⟨?_, ?_, hInv.kaiCap, hInv.kantraCap, hInv.runInActive, hInv.fileNodup,
    hInv.runFile, hInv.progRun, hInv.execRun⟩
  · rw [hq, hr]
    have hn := List.nodup_append.mp hInv.nodupIds
    refine List.nodup_append.mpr ⟨?_, hn.2.1, ?_⟩
    · refine List.nodup_append.mpr ⟨hn.1, List.nodup_singleton _, ?_⟩
      intro a ha hb
      simp only [List.mem_singleton] at hb
      subst hb
      exact hfresh (List.mem_append.mpr (Or.inl ha))
    · intro a ha hb
      rcases List.mem_append.mp ha with ha | ha
      · exact hn.2.2 ha hb
      · simp only [List.mem_singleton] at ha
        subst ha
        exact hfresh (List.mem_append.mpr (Or.inr hb))
  · intro i hi
    rw [hq, hr] at hi
    show i ≤ s.taskcounter + 1
    rcases List.mem_append.mp hi with hi | hi
    · rcases List.mem_append.mp hi with hi | hi
      · have := hInv.idBound i (List.mem_append.mpr (Or.inl hi))
        omega
      · simp only [List.mem_singleton] at hi
        omega
    · have := hInv.idBound i (List.mem_append.mpr (Or.inr hi))
      omega

/-! ### Completion bookkeeping preserves the invariant -/

theorem completeTaskCore_requests (s : SchedState) (r : Requests) :
    (completeTaskCore s r).requests = s.requests := by
  rcases r with ⟨i, n, ty, f⟩
  cases ty <;> rfl

theorem completeTaskCore_runningTasks (s : SchedState) (r : Requests) :
    (completeTaskCore s r).runningTasks = s.runningTasks.filter (fun e => e.id ≠ r.id) := by
  rcases r with ⟨i, n, ty, f⟩
  cases ty <;> rfl

theorem completeTaskCore_fileStateMap (s : SchedState) (r : Requests) :
    (completeTaskCore s r).fileStateMap = mapSet s.fileStateMap r.file ⟨false, none⟩ := by
  rcases r with ⟨i, n, ty, f⟩
  cases ty <;> rfl

theorem completeTaskCore_taskcounter (s : SchedState) (r : Requests) :
    (completeTaskCore s r).taskcounter = s.taskcounter := by
  rcases r with ⟨i, n, ty, f⟩
  cases ty <;> rfl

theorem completeTaskCore_activeOf (s : SchedState) (r : Requests) (ty : WType) :
    activeOf (completeTaskCore s r) ty =
      if ty = r.type then setDelete (activeOf s ty) r.id else activeOf s ty := by
  rcases r with ⟨i, n, ty', f⟩
  cases ty' <;> cases ty <;> rfl

theorem completeTaskCore_maxOf (s : SchedState) (r : Requests) (ty : WType) :
    maxOf (completeTaskCore s r) ty = maxOf s ty := by
  rcases r with ⟨i, n, ty', f⟩
  cases ty' <;> cases ty <;> rfl

theorem inv_completeTaskCore {s : SchedState} {e : RunEntry} (hInv : Inv s)
    (he : e ∈ s.runningTasks) : Inv (completeTaskCore s (reqOf e)) := by
  have hreq : (reqOf e).id = e.id ∧ (reqOf e).type = e.workerType ∧ (reqOf e).file = e.file :=
    ⟨rfl, rfl, rfl⟩
  have hlookat : ∀ f', mlookup (completeTaskCore s (reqOf e)).fileStateMap f' =
      if f' = e.file then some ⟨false, none⟩ else mlookup s.fileStateMap f' := by
    intro f'
    rw [completeTaskCore_fileStateMap, hreq.2.2, mlookup_mapSet]
  have hrsub : List.Sublist (completeTaskCore s (reqOf e)).runningTasks s.runningTasks := by
    rw [completeTaskCore_runningTasks]
    exact List.filter_sublist _
  have hmem_run : ∀ e', e' ∈ (completeTaskCore s (reqOf e)).runningTasks ↔
      (e' ∈ s.runningTasks ∧ e'.id ≠ e.id) := by
    intro e'
    rw [completeTaskCore_runningTasks, hreq.1]
    simp [List.mem_filter]
  refine ⟨?_, ?_, ?_, ?_, ?_, ?_, ?_, ?_, ?_⟩
  · -- nodupIds
    have hsub : List.Sublist (qIds (completeTaskCore s (reqOf e)) ++ runIds (completeTaskCore s (reqOf e)))
        (qIds s ++ runIds s) := by
      rw [qIds, completeTaskCore_requests]
      exact (hrsub.map _).append_left _
    exact hInv.nodupIds.sublist hsub
  · -- idBound
    intro i hi
    rw [completeTaskCore_taskcounter]
    refine hInv.idBound i ?_
    rcases List.mem_append.mp hi with hi | hi
    · rw [qIds, completeTaskCore_requests] at hi
      exact List.mem_append.mpr (Or.inl hi)
    · exact List.mem_append.mpr (Or.inr ((hrsub.map _).subset hi))
  · -- kaiCap
    have h := completeTaskCore_activeOf s (reqOf e) WType.kai
    show (activeOf (completeTaskCore s (reqOf e)) WType.kai).length ≤
      (completeTaskCore s (reqOf e)).maxKaiWorkers
    have hmax : (completeTaskCore s (reqOf e)).maxKaiWorkers = s.maxKaiWorkers :=
      completeTaskCore_maxOf s (reqOf e) WType.kai
    rw [h, hmax]
    split
    · exact le_trans (setDelete_length _ _) hInv.kaiCap
    · exact hInv.kaiCap
  · -- kantraCap
    have h := completeTaskCore_activeOf s (reqOf e) WType.kantra
    show (activeOf (completeTaskCore s (reqOf e)) WType.kantra).length ≤
      (completeTaskCore s (reqOf e)).maxKantraWorkers
    have hmax : (completeTaskCore s (reqOf e)).maxKantraWorkers = s.maxKantraWorkers :=
      completeTaskCore_maxOf s (reqOf e) WType.kantra
    rw [h, hmax]
    split
    · exact le_trans (setDelete_length _ _) hInv.kantraCap
    · exact hInv.kantraCap
  · -- runInActive
    intro e' he'
    obtain ⟨he'mem, he'ne⟩ := (hmem_run e').mp he'
    rw [completeTaskCore_activeOf]
    by_cases hty : e'.workerType = (reqOf e).type
    · rw [if_pos hty]
      exact mem_setDelete.mpr ⟨hInv.runInActive e' he'mem, by rw [hreq.1]; exact he'ne⟩
    · rw [if_neg hty]
      exact hInv.runInActive e' he'mem
  · -- fileNodup
    rw [completeTaskCore_fileStateMap]
    exact mapSet_keys_nodup hInv.fileNodup
  · -- runFile
    intro e' he'
    obtain ⟨he'mem, he'ne⟩ := (hmem_run e').mp he'
    rw [hlookat]
    have hfne : e'.file ≠ e.file := by
      intro hf
      have h1 := hInv.runFile e' he'mem
      have h2 := hInv.runFile e he
      rw [hf, h2] at h1
      simp only [Option.some.injEq, FileSt.mk.injEq, true_and] at h1
      exact he'ne h1.symm
    rw [if_neg hfne]
    exact hInv.runFile e' he'mem
  · -- progRun
    intro f st hlook hprogst
    rw [hlookat] at hlook
    by_cases hf : f = e.file
    · rw [if_pos hf] at hlook
      obtain rfl := Option.some.inj hlook
      simp at hprogst
    · rw [if_neg hf] at hlook
      obtain ⟨e'', he'', hef, hex⟩ := hInv.progRun f st hlook hprogst
      refine ⟨e'', (hmem_run e'').mpr ⟨he'', ?_⟩, hef, hex⟩
      intro hid
      have : e'' = e := hInv.run_id_inj e'' he'' e he hid
      exact hf (this ▸ hef.symm ▸ rfl)
  · -- execRun
    intro f st i hlook hex
    rw [hlookat] at hlook
    by_cases hf : f = e.file
    · rw [if_pos hf] at hlook
      obtain rfl := Option.some.inj hlook
      simp at hex
    · rw [if_neg hf] at hlook
      obtain ⟨e'', he'', hei, hef⟩ := hInv.execRun f st i hlook hex
      refine ⟨e'', (hmem_run e'').mpr ⟨he'', ?_⟩, hei, hef⟩
      intro hid
      have : e'' = e := hInv.run_id_inj e'' he'' e he hid
      exact hf (this ▸ hef.symm)

/-! ### Cancellation -/

/-- Under the invariant, cancelling a running task's id performs exactly the
completion bookkeeping for that task: the entry found in `runningTasks` is the
task's own, and the file-state entry found through the recorded execution
handle is the task's file. -/
theorem cancelTaskCore_eq {s : SchedState} {e : RunEntry} (hInv : Inv s)
    (he : e ∈ s.runningTasks) :
    cancelTaskCore s e.id = completeTaskCore s (reqOf e) := by
  have hfind : findRunning s.runningTasks e.id = some e := by
    have hsome : (s.runningTasks.find? (fun e' => e'.id = e.id)).isSome :=
      List.find?_isSome.mpr ⟨e, he, by simp⟩
    obtain ⟨e₀, he₀⟩ := Option.isSome_iff_exists.mp hsome
    have hid : e₀.id = e.id := by simpa using List.find?_some he₀
    have hmem : e₀ ∈ s.runningTasks := List.mem_of_find?_eq_some he₀
    have he₀e : e₀ = e := hInv.run_id_inj e₀ hmem e he hid
    rw [findRunning, he₀, he₀e]
  have hentry : (e.file, (⟨true, some e.id⟩ : FileSt)) ∈ s.fileStateMap :=
    mlookup_mem (hInv.runFile e he)
  have hsome2 : (s.fileStateMap.find? (fun p => p.2.taskExecution = some e.id)).isSome :=
    List.find?_isSome.mpr ⟨(e.file, ⟨true, some e.id⟩), hentry, by simp⟩
  obtain ⟨p₀, hp₀⟩ := Option.isSome_iff_exists.mp hsome2
  have hpred : p₀.2.taskExecution = some e.id := by simpa using List.find?_some hp₀
  have hpmem : (p₀.1, p₀.2) ∈ s.fileStateMap := by simpa using List.mem_of_find?_eq_some hp₀
  have hlook : mlookup s.fileStateMap p₀.1 = some p₀.2 :=
    mlookup_of_mem_nodup hInv.fileNodup hpmem
  obtain ⟨e'', he'', hid'', hfile''⟩ := hInv.execRun p₀.1 p₀.2 e.id hlook hpred
  have he''e : e'' = e := hInv.run_id_inj e'' he'' e he hid''
  have hp1 : p₀.1 = e.file := by rw [← hfile'', he''e]
  unfold cancelTaskCore
  rw [hfind]
  obtain ⟨pf, pst⟩ := p₀
  rcases e with ⟨i, ty, f, n⟩
  simp only at hp₀ hp1 ⊢
  subst hp1
  cases ty
  · show (match { s with runningTasks := _, activeKaiTasks := _ : SchedState}.fileStateMap.find?
        (fun p => p.2.taskExecution = some i) with
      | some p => _
      | none => _) = _
    rw [show ({ s with
        runningTasks := s.runningTasks.filter (fun e' => e'.id ≠ i),
        activeKaiTasks := setDelete s.activeKaiTasks i : SchedState}).fileStateMap =
          s.fileStateMap from rfl, hp₀]
    rfl
  · show (match { s with runningTasks := _, activeKantraTasks := _ : SchedState}.fileStateMap.find?
        (fun p => p.2.taskExecution = some i) with
      | some p => _
      | none => _) = _
    rw [show ({ s with
        runningTasks := s.runningTasks.filter (fun e' => e'.id ≠ i),
        activeKantraTasks := setDelete s.activeKantraTasks i : SchedState}).fileStateMap =
          s.fileStateMap from rfl, hp₀]
    rfl

theorem cancelTaskCore_notRunning {s : SchedState} {id : Nat}
    (h : ∀ e ∈ s.runningTasks, e.id ≠ id) :
    cancelTaskCore s id = { s with requests := s.requests.filter (fun task => task.id ≠ id) } := by
  have hfind : findRunning s.runningTasks id = none := by
    rw [findRunning]
    refine List.find?_eq_none.mpr ?_
    intro e he
    simpa using h e he
  unfold cancelTaskCore
  rw [hfind]

theorem inv_queueFilter {s : SchedState} (hInv : Inv s) (id : Nat) :
    Inv { s with requests := s.requests.filter (fun task => task.id ≠ id) } := by
  have hsub : List.Sublist
      (qIds { s with requests := s.requests.filter (fun task => task.id ≠ id) } ++
        runIds { s with requests := s.requests.filter (fun task => task.id ≠ id) })
      (qIds s ++ runIds s) := by
    refine List.Sublist.append ?_ (List.Sublist.refl _)
    exact (List.filter_sublist _).map _
  refine ⟨hInv.nodupIds.sublist hsub, ?_, hInv.kaiCap, hInv.kantraCap, hInv.runInActive,
    hInv.fileNodup, hInv.runFile, hInv.progRun, hInv.execRun⟩
  intro i hi
  exact hInv.idBound i (hsub.subset hi)

theorem inv_cancelTask {s : SchedState} (hInv : Inv s) (id : Nat) : Inv (cancelTask s id) := by
  unfold cancelTask
  by_cases hex : ∃ e ∈ s.runningTasks, e.id = id
  · obtain ⟨e, he, rfl⟩ := hex
    rw [cancelTaskCore_eq hInv he]
    exact inv_processQueue (inv_completeTaskCore hInv he)
  · push_neg at hex
    rw [cancelTaskCore_notRunning hex]
    exact inv_processQueue (inv_queueFilter hInv id)

theorem runTaskFinish_of_running {s : SchedState} {e : RunEntry} (he : e ∈ s.runningTasks) :
    runTaskFinish s (reqOf e) = (completeTask s (reqOf e), true) := by
  have : s.runningTasks.any (fun e' => e'.id = (reqOf e).id) = true :=
    List.any_eq_true.mpr ⟨e, he, by simp [reqOf]⟩
  rw [runTaskFinish, if_pos this]

theorem inv_runTaskFinish {s : SchedState} {e : RunEntry} (hInv : Inv s)
    (he : e ∈ s.runningTasks) : Inv (runTaskFinish s (reqOf e)).1 := by
  rw [runTaskFinish_of_running he]
  exact inv_processQueue (inv_completeTaskCore hInv he)

theorem inv_init (mk mkt : Nat) : Inv (initController mk mkt) := by
  refine ⟨?_, ?_, ?_, ?_, ?_, ?_, ?_, ?_, ?_⟩ <;>
    simp [initController, qIds, runIds, mlookup]

/-- Every reachable scheduler state satisfies the inductive invariant. -/
theorem reachable_inv {s : SchedState} (h : Reachable s) : Inv s := by
  induction h with
  | init mk mkt => exact inv_init mk mkt
  | enqueue name ty file _ ih => exact inv_enqueueRequest ih name ty file
  | poll _ ih => exact inv_processQueue ih
  | deliver _ hmem ih => exact inv_runTaskFinish ih hmem
  | cancel id _ ih => exact inv_cancelTask ih id

/-- A reachable state with one admitted kai task for `/a.java`: the
constructor state of `MyTaskProvider`, one enqueue, one admission pass. -/
def schedDemo1 : SchedState :=
  processQueue (enqueueRequest (initController 2 2) "KaiFixTask" WType.kai "/a.java")

theorem schedDemo1_reachable : Reachable schedDemo1 :=
  Reachable.poll (Reachable.enqueue "KaiFixTask" WType.kai "/a.java" (Reachable.init 2 2))

/-- C1: in every reachable scheduler state, at most one running task targets
any given file, across both kinds — the admission pass skips a request whose
file is in progress and marks the admitted request's file in progress before
examining the next request. -/
theorem c1_per_file_mutual_exclusion {s : SchedState} (hs : Reachable s) (f : String) :
    (s.runningTasks.filter (fun e => e.file = f)).length ≤ 1 := by
  have hInv := reachable_inv hs
  have hndrun : (runIds s).Nodup := (List.nodup_append.mp hInv.nodupIds).2.1
  have hnd : s.runningTasks.Nodup := List.Nodup.of_map _ hndrun
  refine filter_length_le_one hnd ?_
  intro a ha b hb hpa hpb
  have hfa : a.file = f := of_decide_eq_true hpa
  have hfb : b.file = f := of_decide_eq_true hpb
  have h1 := hInv.runFile a ha
  have h2 := hInv.runFile b hb
  rw [hfa] at h1
  rw [hfb] at h2
  have h3 := h1.symm.trans h2
  simp only [Option.some.injEq, FileSt.mk.injEq, true_and, Option.some.injEq] at h3
  exact hInv.run_id_inj a ha b hb h3

/-- Witness for C1 at a concrete reachable state holding one running task. -/
theorem c1_per_file_mutual_exclusion_witness :
    schedDemo1.runningTasks.length = 1 ∧
      (schedDemo1.runningTasks.filter (fun e => e.file = "/a.java")).length ≤ 1 :=
  ⟨by decide, c1_per_file_mutual_exclusion schedDemo1_reachable "/a.java"⟩

/-- C2: in every reachable scheduler state, the number of running tasks of
each kind is bounded by that kind's configured capacity (`maxKaiWorkers` /
`maxKantraWorkers`; both 2 in `MyTaskProvider`'s construction). -/
theorem c2_capacity_bound {s : SchedState} (hs : Reachable s) (ty : WType) :
    (s.runningTasks.filter (fun e => e.workerType = ty)).length ≤ maxOf s ty := by
  have hInv := reachable_inv hs
  have hlsub : List.Sublist (s.runningTasks.filter (fun e => e.workerType = ty))
      s.runningTasks := List.filter_sublist _
  have hndrun : (runIds s).Nodup := (List.nodup_append.mp hInv.nodupIds).2.1
  have hnd : ((s.runningTasks.filter (fun e => e.workerType = ty)).map (fun e => e.id)).Nodup :=
    hndrun.sublist (hlsub.map _)
  have hsub : ∀ x ∈ (s.runningTasks.filter (fun e => e.workerType = ty)).map (fun e => e.id),
      x ∈ activeOf s ty := by
    intro x hx
    obtain ⟨e, he, rfl⟩ := List.mem_map.mp hx
    have hemem := (List.mem_filter.mp he).1
    have hety : e.workerType = ty := of_decide_eq_true (List.mem_filter.mp he).2
    exact hety ▸ hInv.runInActive e hemem
  calc (s.runningTasks.filter (fun e => e.workerType = ty)).length
      = ((s.runningTasks.filter (fun e => e.workerType = ty)).map (fun e => e.id)).length := by
        rw [List.length_map]
    _ = ((s.runningTasks.filter (fun e => e.workerType = ty)).map (fun e => e.id)).toFinset.card :=
        (List.toFinset_card_of_nodup hnd).symm
    _ ≤ (activeOf s ty).toFinset.card := by
        refine Finset.card_le_card ?_
        intro x hx
        rw [List.mem_toFinset] at hx ⊢
        exact hsub x hx
    _ ≤ (activeOf s ty).length := List.toFinset_card_le _
    _ ≤ maxOf s ty := by
        cases ty
        · exact hInv.kaiCap
        · exact hInv.kantraCap

/-- Witness for C2 at a concrete reachable state (both capacities 2, as in
`MyTaskProvider`), with one running kai task. -/
theorem c2_capacity_bound_witness :
    maxOf schedDemo1 WType.kai = 2 ∧
      (schedDemo1.runningTasks.filter (fun e => e.workerType = WType.kai)).length = 1 ∧
      (schedDemo1.runningTasks.filter (fun e => e.workerType = WType.kai)).length ≤
        maxOf schedDemo1 WType.kai :=
  ⟨by decide, by decide, c2_capacity_bound schedDemo1_reachable WType.kai⟩

/-- C3: cancelling a running task's id clears its file's in-progress flag and
removes the id from its kind's active-worker set during the bookkeeping part
of `cancelTask` (before the trailing admission pass runs and `cancelTask`
returns); the id stays out of the active set and out of `runningTasks` after
the full `cancelTask`, so a late result for that id fails the
`runningTasks.has` guard of `SimplePseudoterminal.runTask` and the completion
handler is never invoked for it. -/
theorem c3_cancel_running_task {s : SchedState} (hs : Reachable s) {e : RunEntry}
    (he : e ∈ s.runningTasks) :
    isFileInProgress (cancelTaskCore s e.id) e.file = false ∧
      e.id ∉ activeOf (cancelTaskCore s e.id) e.workerType ∧
      e.id ∉ activeOf (cancelTask s e.id) e.workerType ∧
      (∀ e' ∈ (cancelTask s e.id).runningTasks, e'.id ≠ e.id) ∧
      (runTaskFinish (cancelTask s e.id) (reqOf e)).2 = false := by
  have hInv := reachable_inv hs
  have hcore := cancelTaskCore_eq hInv he
  have heidrun : e.id ∈ runIds s := List.mem_map_of_mem _ he
  have heidq : e.id ∉ qIds s := fun hq =>
    List.disjoint_of_nodup_append hInv.nodupIds hq heidrun
  have hq_core : qIds (cancelTaskCore s e.id) = qIds s := by
    rw [hcore, qIds, completeTaskCore_requests]
    rfl
  have hact_core : e.id ∉ activeOf (cancelTaskCore s e.id) e.workerType := by
    rw [hcore, completeTaskCore_activeOf]
    simp only [reqOf, if_true]
    intro hmem
    exact (mem_setDelete.mp hmem).2 rfl
  have hrun_core : e.id ∉ runIds (cancelTaskCore s e.id) := by
    rw [hcore, runIds, completeTaskCore_runningTasks]
    intro hmem
    obtain ⟨e', he', hid⟩ := List.mem_map.mp hmem
    have := (List.mem_filter.mp he').2
    simp only [reqOf] at this
    exact (of_decide_eq_true this) hid
  have hrun_after : e.id ∉ runIds (cancelTask s e.id) := by
    rw [cancelTask]
    intro hmem
    rcases List.mem_append.mp (runIds_foldl_subset _ _ hmem) with h | h
    · exact hrun_core h
    · rw [show (cancelTaskCore s e.id).requests.map (fun r => r.id) = qIds (cancelTaskCore s e.id)
          from rfl, hq_core] at h
      exact heidq h
  have hact_after : e.id ∉ activeOf (cancelTask s e.id) e.workerType := by
    rw [cancelTask]
    intro hmem
    rcases List.mem_append.mp (activeOf_foldl_subset _ _ _ hmem) with h | h
    · exact hact_core h
    · rw [show (cancelTaskCore s e.id).requests.map (fun r => r.id) = qIds (cancelTaskCore s e.id)
          from rfl, hq_core] at h
      exact heidq h
  refine ⟨?_, hact_core, hact_after, ?_, ?_⟩
  · rw [hcore, isFileInProgress, completeTaskCore_fileStateMap]
    have : (reqOf e).file = e.file := rfl
    rw [this, mlookup_mapSet_self]
  · intro e' he' hid
    have h5 : e'.id ∈ runIds (cancelTask s e.id) := List.mem_map_of_mem _ he'
    rw [hid] at h5
    exact hrun_after h5
  · rw [runTaskFinish]
    have hany : ((cancelTask s e.id).runningTasks.any (fun e' => e'.id = (reqOf e).id)) = false := by
      rw [List.any_eq_false]
      intro e' he'
      simp only [reqOf, decide_eq_true_eq]
      intro hid
      have h5 : e'.id ∈ runIds (cancelTask s e.id) := List.mem_map_of_mem _ he'
      rw [hid] at h5
      exact hrun_after h5
    rw [hany]
    simp

/-- Witness for C3: cancel the single running task of the demo state. -/
theorem c3_cancel_running_task_witness :
    isFileInProgress (cancelTaskCore schedDemo1 1) "/a.java" = false ∧
      1 ∉ activeOf (cancelTaskCore schedDemo1 1) WType.kai ∧
      1 ∉ activeOf (cancelTask schedDemo1 1) WType.kai ∧
      (∀ e' ∈ (cancelTask schedDemo1 1).runningTasks, e'.id ≠ 1) ∧
      (runTaskFinish (cancelTask schedDemo1 1)
        (reqOf ⟨1, WType.kai, "/a.java", "KaiFixTask"⟩)).2 = false :=
  c3_cancel_running_task schedDemo1_reachable (e := ⟨1, WType.kai, "/a.java", "KaiFixTask"⟩)
    (by decide)

/-! ## Characterizing the full report parse

The nested loops of `parseOutputYaml` are equal to pushing the flattened,
tagged incident sequence of the report onto the map in traversal order; the
resulting entry for each file is the previous entry (if any) followed by the
report's incidents for that file. -/

/-- Push a sequence of already-tagged incidents in order. -/
def pushAll (m : IncidentMap) (l : List Incident) : IncidentMap :=
  l.foldl (fun acc i => pushIncident acc (extractFilePath i.uri) i) m

/-- The tagged incidents of one section, in traversal order. -/
def sectionIncidents (key : String) (entries : List (String × ViolationRec)) : List Incident :=
  entries.flatMap (fun entry => (entry.2.incidents.getD []).map (tagIncident (mapKeyToKind key)))

/-- The tagged incidents of one rule set, in traversal order. -/
def rulesetIncidents (ruleset : Ruleset) : List Incident :=
  fullParseKeys.flatMap (fun key =>
    match sectionOf ruleset key with
    | none => []
    | some entries => sectionIncidents key entries)

/-- The tagged incidents of the whole report, in traversal order. -/
def reportIncidents (parsedData : List Ruleset) : List Incident :=
  parsedData.flatMap rulesetIncidents

/-- The report's incidents for one (already extracted) file path. -/
def incidentsForFile (parsedData : List Ruleset) (f : String) : List Incident :=
  (reportIncidents parsedData).filter (fun i => extractFilePath i.uri = f)

theorem pushAll_append (m : IncidentMap) (l₁ l₂ : List Incident) :
    pushAll m (l₁ ++ l₂) = pushAll (pushAll m l₁) l₂ := by
  rw [pushAll, pushAll, pushAll, List.foldl_append]

theorem foldl_pushAll_flatMap {α : Type} (g : α → List Incident) (l : List α) (m : IncidentMap) :
    l.foldl (fun acc a => pushAll acc (g a)) m = pushAll m (l.flatMap g) := by
  induction l generalizing m with
  | nil => rfl
  | cons a l ih =>
    rw [List.foldl_cons, List.flatMap_cons, pushAll_append, ih]

theorem inner_foldl_eq_pushAll (key : String) (incs : List RawIncident) (m : IncidentMap) :
    incs.foldl (fun m4 incident =>
        pushIncident m4 (extractFilePath incident.uri)
          (tagIncident (mapKeyToKind key) incident)) m =
      pushAll m (incs.map (tagIncident (mapKeyToKind key))) := by
  rw [pushAll, List.foldl_map]
  rfl

theorem entries_foldl_eq_pushAll (key : String) (entries : List (String × ViolationRec))
    (m : IncidentMap) :
    entries.foldl (fun m3 entry =>
        (entry.2.incidents.getD []).foldl (fun m4 incident =>
          pushIncident m4 (extractFilePath incident.uri)
            (tagIncident (mapKeyToKind key) incident)) m3) m =
      pushAll m (sectionIncidents key entries) := by
  have h : ∀ entry : String × ViolationRec,
      (fun m3 (entry : String × ViolationRec) =>
        (entry.2.incidents.getD []).foldl (fun m4 incident =>
          pushIncident m4 (extractFilePath incident.uri)
            (tagIncident (mapKeyToKind key) incident)) m3) m entry =
        pushAll m ((entry.2.incidents.getD []).map (tagIncident (mapKeyToKind key))) :=
    fun entry => inner_foldl_eq_pushAll key _ m
  calc entries.foldl (fun m3 entry =>
        (entry.2.incidents.getD []).foldl (fun m4 incident =>
          pushIncident m4 (extractFilePath incident.uri)
            (tagIncident (mapKeyToKind key) incident)) m3) m
      = entries.foldl (fun m3 entry =>
          pushAll m3 ((entry.2.incidents.getD []).map (tagIncident (mapKeyToKind key)))) m := by
        congr 1
        funext m3 entry
        exact inner_foldl_eq_pushAll key _ m3
    _ = pushAll m (sectionIncidents key entries) := by
        rw [sectionIncidents]
        exact foldl_pushAll_flatMap _ entries m

theorem keys_foldl_eq_pushAll (ruleset : Ruleset) (ks : List String) (m : IncidentMap) :
    ks.foldl (fun m2 key =>
        match sectionOf ruleset key with
        | none => m2
        | some entries =>
          entries.foldl (fun m3 entry =>
            (entry.2.incidents.getD []).foldl (fun m4 incident =>
              pushIncident m4 (extractFilePath incident.uri)
                (tagIncident (mapKeyToKind key) incident)) m3) m2) m =
      pushAll m (ks.flatMap (fun key =>
        match sectionOf ruleset key with
        | none => []
        | some entries => sectionIncidents key entries)) := by
  induction ks generalizing m with
  | nil => rfl
  | cons key ks ih =>
    rw [List.foldl_cons, List.flatMap_cons, pushAll_append, ← ih]
    congr 1
    cases hsec : sectionOf ruleset key
    · rfl
    · exact entries_foldl_eq_pushAll key _ m

/-- `parseOutputYaml` pushes exactly the flattened tagged report. -/
theorem parseOutputYaml_eq_pushAll (m : IncidentMap) (parsedData : List Ruleset) :
    parseOutputYaml m parsedData = pushAll m (reportIncidents parsedData) := by
  induction parsedData generalizing m with
  | nil => rfl
  | cons ruleset rest ih =>
    rw [parseOutputYaml, List.foldl_cons]
    rw [show reportIncidents (ruleset :: rest) = rulesetIncidents ruleset ++ reportIncidents rest
      from List.flatMap_cons ..]
    rw [pushAll_append]
    rw [show List.foldl _ _ rest = parseOutputYaml _ rest from rfl, ih]
    congr 1
    exact keys_foldl_eq_pushAll ruleset fullParseKeys m

theorem mlookup_pushIncident (m : IncidentMap) (fp k : String) (i : Incident) :
    mlookup (pushIncident m fp i) k =
      if k = fp then some ((mlookup m fp).getD [] ++ [i]) else mlookup m k := by
  unfold pushIncident
  cases hl : mlookup m fp with
  | some l =>
    simp only [hl, Option.isSome_some, if_true, mlookup_mapSet, Option.getD_some]
  | none =>
    simp only [hl, Option.isSome_none, Bool.false_eq_true, if_false]
    rw [mlookup_mapSet_self]
    simp only [mlookup_mapSet]
    by_cases hk : k = fp
    · simp [hk]
    · simp [hk]

/-- The entry for `f` after pushing a tagged sequence: the old entry followed
by the sequence's incidents whose extracted path is `f`. -/
theorem mlookup_pushAll (l : List Incident) :
    ∀ (m : IncidentMap) (f : String), mlookup (pushAll m l) f =
      match mlookup m f, l.filter (fun i => extractFilePath i.uri = f) with
      | none, [] => none
      | o, fl => some (o.getD [] ++ fl) := by
  induction l with
  | nil =>
    intro m f
    cases hm : mlookup m f <;> simp [pushAll, hm]
  | cons i l ih =>
    intro m f
    rw [show pushAll m (i :: l) = pushAll (pushIncident m (extractFilePath i.uri) i) l from rfl, ih]
    by_cases hf : extractFilePath i.uri = f
    · rw [List.filter_cons_of_pos (by simpa using hf)]
      rw [mlookup_pushIncident, if_pos hf.symm, hf]
      cases hm : mlookup m f <;>
        cases hl : l.filter (fun i => extractFilePath i.uri = f) <;> simp [hm, hl]
    · rw [List.filter_cons_of_neg (by simpa using hf)]
      rw [mlookup_pushIncident, if_neg (fun h => hf h.symm)]

/-! ## C4: full parse vs. the previous index -/

/-- A pre-existing index entry, used to exhibit what survives a full parse. -/
def oldIncident : Incident := { kind := Kind.hint, uri := "/old.java", message := "old finding" }

/-- A non-empty prior incident index. -/
def oldMap : IncidentMap := [("/old.java", [oldIncident])]

/-- Counterexample for C4: running the full parse over a prior non-empty index
does not yield the index built from the report starting from an empty map —
the prior entry for `/old.java` survives (here with the empty report, whose
from-empty parse is empty). -/
theorem c4_full_parse_not_replacing_cex :
    parseOutputYaml oldMap [] ≠ parseOutputYaml ([] : IncidentMap) [] := by
  intro h
  have h2 : (mlookup (parseOutputYaml oldMap []) "/old.java").isSome =
      (mlookup (parseOutputYaml ([] : IncidentMap) []) "/old.java").isSome :=
    congrArg (fun m => (mlookup m "/old.java").isSome) h
  exact absurd h2 (by decide)

/-- C4 (amended): the full parse merges into the prior index instead of
replacing it — the entry for each file afterwards is the prior entry (if any)
followed by the report's tagged incidents for that file, so prior entries
survive; only from an empty prior index does the result equal the index built
from the report alone. -/
theorem c4_full_parse_append_semantics (m : IncidentMap) (parsedData : List Ruleset)
    (f : String) :
    mlookup (parseOutputYaml m parsedData) f =
      match mlookup m f, incidentsForFile parsedData f with
      | none, [] => none
      | o, fl => some (o.getD [] ++ fl) := by
  rw [parseOutputYaml_eq_pushAll, mlookup_pushAll]
  rfl

/-- C5: if reading or YAML-parsing the report file fails, the operation fails
and the incident index is exactly the index from before the call — the
exception propagates from the read/parse stage of `parseOutputYaml`, before
the loops touch the map. -/
theorem c5_parse_error_preserves_index (m : IncidentMap) (e : String) :
    parseOutputYamlRun m (Except.error e) = (m, Except.error e) := rfl

/-- C6: `updateFileIncidents` replaces exactly the entry for the normalized
target path with the incidents parsed for that file from the partial report,
and every other key's entry is unchanged. -/
theorem c6_reindex_frame (m : IncidentMap) (parsedData : List Ruleset) (filePath : String) :
    mlookup (updateFileIncidents m parsedData filePath) (normalizePath filePath) =
        some (parseIncidentsForFile parsedData filePath) ∧
      ∀ k, k ≠ normalizePath filePath →
        mlookup (updateFileIncidents m parsedData filePath) k = mlookup m k := by
  constructor
  · rw [updateFileIncidents]
    exact mlookup_mapSet_self ..
  · intro k hk
    rw [updateFileIncidents]
    exact mlookup_mapSet_ne _ _ _ _ hk

/-- A partial report for `/a.java` with one `violations` incident, plus an
`insights` incident that the single-file re-parse ignores. -/
def partialRaw : RawIncident := { uri := "file:///a.java", message := "violation finding" }

def partialReport : List Ruleset :=
  [{ violations := some [("rule-1", { incidents := some [partialRaw] })],
     insights := some [("rule-2", { incidents := some [{ uri := "file:///a.java", message := "insight" }] })] }]

/-- A prior index entry for a different file, untouched by re-indexing. -/
def otherMap : IncidentMap :=
  [("/b.java", [{ kind := Kind.hint, uri := "/b.java", message := "other" }])]

/-- Witness for C6: re-indexing `/a.java` over a prior index leaves the
`/b.java` entry unchanged and installs the parsed incidents for `/a.java`. -/
theorem c6_reindex_frame_witness :
    mlookup (updateFileIncidents otherMap partialReport "/a.java") (normalizePath "/a.java") =
        some (parseIncidentsForFile partialReport "/a.java") ∧
      mlookup (updateFileIncidents otherMap partialReport "/a.java") "/b.java" =
        mlookup otherMap "/b.java" :=
  ⟨(c6_reindex_frame otherMap partialReport "/a.java").1,
    (c6_reindex_frame otherMap partialReport "/a.java").2 "/b.java" (by decide)⟩

/-! ## C9: the single-file re-parse only produces hints -/

theorem foldl_preserve {α γ : Type} (P : γ → Prop) (g : γ → α → γ) (l : List α) (init : γ)
    (hstep : ∀ c a, a ∈ l → P c → P (g c a)) (hinit : P init) : P (l.foldl g init) := by
  induction l generalizing init with
  | nil => exact hinit
  | cons a l ih =>
    rw [List.foldl_cons]
    exact ih _ (fun c b hb hc => hstep c b (List.mem_cons_of_mem a hb) hc)
      (hstep init a (List.mem_cons_self a l) hinit)

theorem parseIncidentsForFile_kind (parsedData : List Ruleset) (filePath : String) :
    ∀ i ∈ parseIncidentsForFile parsedData filePath, i.kind = Kind.hint := by
  rw [parseIncidentsForFile]
  refine foldl_preserve (fun acc : List Incident => ∀ i ∈ acc, i.kind = Kind.hint) _ _ _ ?_ (by simp)
  intro acc1 ruleset _ hacc1
  refine foldl_preserve (fun acc : List Incident => ∀ i ∈ acc, i.kind = Kind.hint) _ _ _ ?_ hacc1
  intro acc2 key hkey hacc2
  cases hsec : sectionOf ruleset key
  · simpa [hsec] using hacc2
  · simp only [hsec]
    refine foldl_preserve (fun acc : List Incident => ∀ i ∈ acc, i.kind = Kind.hint) _ _ _ ?_ hacc2
    intro acc3 entry _ hacc3
    refine foldl_preserve (fun acc : List Incident => ∀ i ∈ acc, i.kind = Kind.hint) _ _ _ ?_ hacc3
    intro acc4 incident _ hacc4
    split
    · intro i hi
      rcases List.mem_append.mp hi with hi | hi
      · exact hacc4 i hi
      · simp only [List.mem_singleton] at hi
        subst hi
        simp only [List.mem_singleton] at hkey
        subst hkey
        rfl
    · exact hacc4

/-- C9: after `updateFileIncidents` for a file, every incident stored in that
file's index entry has kind `hint` — the partial-report re-parse iterates only
the `violations` sections (tagged `hint` by `mapKeyToKind`), so `insights`,
`unmatched` and `skipped` incidents of the partial report are dropped. -/
theorem c9_reindex_only_hints (m : IncidentMap) (parsedData : List Ruleset) (filePath : String) :
    ∀ i ∈ (mlookup (updateFileIncidents m parsedData filePath)
        (normalizePath filePath)).getD [], i.kind = Kind.hint := by
  rw [updateFileIncidents, mlookup_mapSet_self, Option.getD_some]
  exact parseIncidentsForFile_kind parsedData filePath

/-- Witness for C9: the re-indexed entry for `/a.java` from `partialReport` is
exactly the tagged `violations` incident, and its kind is `hint`. -/
theorem c9_reindex_only_hints_witness :
    (mlookup (updateFileIncidents ([] : IncidentMap) partialReport "/a.java")
        (normalizePath "/a.java")).getD [] = [tagIncident Kind.hint partialRaw] ∧
      (tagIncident Kind.hint partialRaw).kind = Kind.hint :=
  ⟨rfl, c9_reindex_only_hints ([] : IncidentMap) partialReport "/a.java"
    (tagIncident Kind.hint partialRaw) (by
      rw [show (mlookup (updateFileIncidents ([] : IncidentMap) partialReport "/a.java")
        (normalizePath "/a.java")).getD [] = [tagIncident Kind.hint partialRaw] from rfl]
      exact List.mem_singleton.mpr rfl)⟩

/-! ## C7: per-section tagging of the full parse -/

/-- The flattened report with each tagged incident paired with the section key
it came from (same traversal as `parseOutputYaml`). -/
def reportSectionIncidents (parsedData : List Ruleset) : List (String × Incident) :=
  parsedData.flatMap (fun ruleset =>
    fullParseKeys.flatMap (fun key =>
      match sectionOf ruleset key with
      | none => []
      | some entries => entries.flatMap (fun entry =>
          (entry.2.incidents.getD []).map (fun inc => (key, tagIncident (mapKeyToKind key) inc)))))

theorem reportIncidents_eq_section_snd (parsedData : List Ruleset) :
    reportIncidents parsedData = (reportSectionIncidents parsedData).map Prod.snd := by
  rw [reportIncidents, reportSectionIncidents, List.map_flatMap]
  congr 1
  funext ruleset
  rw [rulesetIncidents, List.map_flatMap]
  congr 1
  funext key
  cases hsec : sectionOf ruleset key
  · simp
  · simp only
    rw [sectionIncidents, List.map_flatMap]
    congr 1
    funext entry
    rw [List.map_map]
    rfl

theorem mapKeyToKind_classification (key : String) :
    mapKeyToKind key = Kind.classification ↔ key = "skipped" := by
  unfold mapKeyToKind
  by_cases h1 : key = "violations"
  · subst h1
    simp
  · by_cases h2 : key = "skipped" <;> simp [h1, h2]

/-- C7 (amended): the full parse tags every incident with
`mapKeyToKind` of the section it was found under, and that tag is
`classification` exactly for the `skipped` section — `violations`, `insights`
and `unmatched` incidents are all tagged `hint`. -/
theorem c7_section_tagging :
    (∀ (m : IncidentMap) (parsedData : List Ruleset),
        parseOutputYaml m parsedData =
          pushAll m ((reportSectionIncidents parsedData).map Prod.snd)) ∧
      ∀ (parsedData : List Ruleset) (key : String) (inc : Incident),
        (key, inc) ∈ reportSectionIncidents parsedData →
        (inc.kind = Kind.classification ↔ key = "skipped") := by
  constructor
  · intro m parsedData
    rw [parseOutputYaml_eq_pushAll, reportIncidents_eq_section_snd]
  · intro parsedData key inc hmem
    rw [reportSectionIncidents] at hmem
    obtain ⟨ruleset, _, hmem2⟩ := List.mem_flatMap.mp hmem
    obtain ⟨key', _, hmem3⟩ := List.mem_flatMap.mp hmem2
    rcases hsec : sectionOf ruleset key' with _ | entries
    · rw [hsec] at hmem3
      simp at hmem3
    · rw [hsec] at hmem3
      obtain ⟨entry, _, hmem4⟩ := List.mem_flatMap.mp hmem3
      obtain ⟨raw, _, heq⟩ := List.mem_map.mp hmem4
      obtain ⟨rfl, rfl⟩ := Prod.mk.injEq .. ▸ heq
      exact mapKeyToKind_classification _

/-- An `unmatched` section incident for `/u.java`. -/
def unmatchedRaw : RawIncident := { uri := "file:///u.java", message := "unmatched finding" }

def unmatchedReport : List Ruleset :=
  [{ unmatched := some [("rule-u", { incidents := some [unmatchedRaw] })] }]

/-- Counterexample for C7: an incident from an `unmatched` section is stored
with kind `hint`, not `classification` — `mapKeyToKind` maps only `skipped`
to `classification` and defaults `unmatched` to `hint`. -/
theorem c7_unmatched_tagged_hint_cex :
    mlookup (parseOutputYaml ([] : IncidentMap) unmatchedReport) "/u.java" =
        some [tagIncident Kind.hint unmatchedRaw] ∧
      Kind.hint ≠ Kind.classification :=
  ⟨rfl, by decide⟩

/-- Witness for C7's amended theorem at a concrete `skipped`-section report. -/
def skippedRaw : RawIncident := { uri := "file:///s.java", message := "skipped finding" }

def skippedReport : List Ruleset :=
  [{ skipped := some [("rule-s", { incidents := some [skippedRaw] })] }]

theorem c7_section_tagging_witness :
    ((tagIncident (mapKeyToKind "skipped") skippedRaw).kind = Kind.classification ↔
        "skipped" = "skipped") ∧
      parseOutputYaml ([] : IncidentMap) skippedReport =
        pushAll ([] : IncidentMap) ((reportSectionIncidents skippedReport).map Prod.snd) :=
  ⟨c7_section_tagging.2 skippedReport "skipped" (tagIncident (mapKeyToKind "skipped") skippedRaw)
      (by
        rw [show reportSectionIncidents skippedReport =
          [("skipped", tagIncident (mapKeyToKind "skipped") skippedRaw)] from rfl]
        exact List.mem_singleton.mpr rfl),
    c7_section_tagging.1 ([] : IncidentMap) skippedReport⟩

/-! ## C8 and C10: response-content extraction -/

/-- Counterexample for C8: for the success response `\x7b\x7d`, the result
router still hands content to the diff presentation — `handleTaskResult`
writes `extractUpdatedFile`'s extraction-failure message to the temp file and
opens the diff with it as the proposed content. -/
theorem c8_extraction_error_handed_to_diff_cex :
    (handleTaskResult "/a.java" { result := "\x7b\x7d" } "kai" true).handsContentToDiff =
      true := rfl

/-- C8 (amended): the success response with `updated_file = "class A \x7b\x7d"`
yields that string as the proposed content handed to the diff presentation;
the response `\x7b\x7d` yields the fixed extraction-failure message string —
no crash — but that message string is itself handed to the diff presentation
as the proposed content. -/
theorem c8_extraction_scenarios :
    extractUpdatedFile "\x7b\"updated_file\": \"class A \x7b\x7d\"\x7d" =
        Json.str "class A \x7b\x7d" ∧
      handleTaskResult "/a.java" { result := "\x7b\"updated_file\": \"class A \x7b\x7d\"\x7d" }
          "kai" true =
        RouterOutcome.diffPresented "/a.java" (Json.str "class A \x7b\x7d") ∧
      extractUpdatedFile "\x7b\x7d" = Json.str missingFieldMessage ∧
      handleTaskResult "/a.java" { result := "\x7b\x7d" } "kai" true =
        RouterOutcome.diffPresented "/a.java" (Json.str missingFieldMessage) :=
  ⟨rfl, rfl, rfl, rfl⟩

/-- Counterexample for C10: when the parsed `updated_file` field is a truthy
non-string JSON value (here the number `42`), `extractUpdatedFile` returns
that value as-is, so the result is not a (non-empty) string. -/
theorem c10_nonstring_result_cex :
    extractUpdatedFile "\x7b\"updated_file\": 42\x7d" = Json.num 42 0 ∧
      (extractUpdatedFile "\x7b\"updated_file\": 42\x7d").isNonemptyString = false :=
  ⟨rfl, rfl⟩

/-- C10 (amended): `extractUpdatedFile` is total and never produces the empty
string — parse failures and a missing field yield fixed sentinel messages, a
falsy `updated_file` (including the empty string) yields the fixed
placeholder — but a truthy non-string field value is returned unchanged, so
the result is not always a string. -/
theorem c10_extract_total_nonempty :
    (∀ (s : String) (t : String), extractUpdatedFile s = Json.str t → t ≠ "") ∧
      extractUpdatedFile "\x7b\"updated_file\": \"\"\x7d" = Json.str noContentMessage := by
  refine ⟨?_, rfl⟩
  intro s t h
  cases hp : jsonParse s with
  | none =>
    simp only [extractUpdatedFile, hp, Json.str.injEq] at h
    subst h
    decide
  | some v =>
    cases v with
    | obj fields =>
      simp only [extractUpdatedFile, hp] at h
      cases hl : mlookup fields "updated_file" with
      | none =>
        simp only [hl, Json.str.injEq] at h
        subst h
        decide
      | some content =>
        simp only [hl] at h
        by_cases htr : content.truthy = true
        · rw [if_pos htr] at h
          subst h
          simpa [Json.truthy] using htr
        · rw [if_neg htr] at h
          have := (Json.str.injEq ..).mp h
          subst this
          decide
    | arr elems =>
      simp only [extractUpdatedFile, hp, Json.str.injEq] at h
      subst h
      decide
    | null =>
      simp only [extractUpdatedFile, hp, Json.str.injEq] at h
      subst h
      decide
    | bool b =>
      simp only [extractUpdatedFile, hp, Json.str.injEq] at h
      subst h
      decide
    | num mant ex =>
      simp only [extractUpdatedFile, hp, Json.str.injEq] at h
      subst h
      decide
    | str s' =>
      simp only [extractUpdatedFile, hp, Json.str.injEq] at h
      subst h
      decide

/-- Witness for C10: the missing-field sentinel produced for `\x7b\x7d` is a
non-empty string. -/
theorem c10_extract_total_nonempty_witness :
    missingFieldMessage ≠ "" ∧ extractUpdatedFile "\x7b\x7d" = Json.str missingFieldMessage :=
  ⟨c10_extract_total_nonempty.1 "\x7b\x7d" missingFieldMessage rfl, rfl⟩

end KaiPlugin
